import Mathlib

/-!
Verification of the PICA texture codec (`src/pica_texture`).

A shallow embedding of `src/pica_texture/{util,encode,decode}.rs`: the
swizzled 8×8 tile traversal, the twelve uncompressed pixel encoders, the
five implemented decoders, the vertical flip, and the ETC1/ETC1A4 block
assembly (the external native block compressor stays abstract, per its
call contract). Bytes are modelled as `Nat` (bounded by 256 where that
matters), buffers as `List Nat`, raster images as functions from
coordinates to pixels; Rust index panics are modelled as `none`.
-/

namespace PicaTexture

/-- An RGBA pixel of the source raster (an `image::RgbaImage` pixel),
channels `r`, `g`, `b`, `a` as byte values. -/
structure Pixel where
  r : Nat
  g : Nat
  b : Nat
  a : Nat
deriving DecidableEq

/-- A raster image: pixel lookup by `(x, y)`, mirroring `img.get_pixel(x, y)`. -/
abbrev Image : Type := Nat → Nat → Pixel

/-- All four channels of a pixel are bytes. -/
def PixelBytes (p : Pixel) : Prop :=
  p.r < 256 ∧ p.g < 256 ∧ p.b < 256 ∧ p.a < 256

/-- Every pixel of the image has byte-valued channels. -/
def ImageBytes (img : Image) : Prop := ∀ x y, PixelBytes (img x y)

/-- Rust `SWIZZLE_LUT` of `util.rs`: the 64-entry swizzle table. -/
def SWIZZLE_LUT : List Nat :=
  [0,  1,  8,  9,  2,  3,  10, 11,
   16, 17, 24, 25, 18, 19, 26, 27,
   4,  5,  12, 13, 6,  7,  14, 15,
   20, 21, 28, 29, 22, 23, 30, 31,
   32, 33, 40, 41, 34, 35, 42, 43,
   48, 49, 56, 57, 50, 51, 58, 59,
   36, 37, 44, 45, 38, 39, 46, 47,
   52, 53, 60, 61, 54, 55, 62, 63]

/-- Rust `XT` of `util.rs`: x offsets of the four 4×4 sub-blocks of a tile. -/
def XT : List Nat := [0, 4, 0, 4]

/-- Rust `YT` of `util.rs`: y offsets of the four 4×4 sub-blocks of a tile. -/
def YT : List Nat := [0, 0, 4, 4]

/-- Start offsets visited by Rust's `(0..n).step_by(8)`. -/
def tileStarts (n : Nat) : List Nat :=
  (List.range ((n + 7) / 8)).map (fun i => 8 * i)

/-- Tile-raster traversal shared by every uncompressed encoder and decoder:
`ty` outer loop (step 8), `tx` inner loop (step 8), then the 64 swizzle
slots, as triples `(tx, ty, px)`. -/
def traversal (w h : Nat) : List (Nat × Nat × Nat) :=
  (tileStarts h).flatMap (fun ty =>
    (tileStarts w).flatMap (fun tx =>
      SWIZZLE_LUT.map (fun px => (tx, ty, px))))

/-! ## Uncompressed encoders (`encode.rs`) -/

/-- Loop body shared verbatim by the uncompressed encoders: walk the
traversal, compute `x = px & 7`, `y = (px >> 3) & 7`, skip slots whose
absolute pixel falls outside the image, and append `pix`'s bytes for the
in-bounds ones. -/
def encodeWalk (img : Image) (w h : Nat) (pix : Pixel → List Nat) : List Nat :=
  (traversal w h).flatMap (fun e =>
    let x := e.2.2 &&& 7
    let y := (e.2.2 >>> 3) &&& 7
    let img_x := e.1 + x
    let img_y := e.2.1 + y
    if w ≤ img_x ∨ h ≤ img_y then []
    else pix (img img_x img_y))

/-- Rust `encode_rgba8888`: bytes `[a, b, g, r]` per pixel. -/
def encode_rgba8888 (img : Image) (w h : Nat) : List Nat :=
  encodeWalk img w h (fun p => [p.a, p.b, p.g, p.r])

/-- Rust `encode_rgb888`: bytes `[b, g, r]` per pixel. -/
def encode_rgb888 (img : Image) (w h : Nat) : List Nat :=
  encodeWalk img w h (fun p => [p.b, p.g, p.r])

/-- Rust `encode_rgba5551`: pack `(r>>3, g>>3, b>>3, a>127)` as
`(r << 11) | (g << 6) | (b << 1) | a`, two little-endian bytes. -/
def encode_rgba5551 (img : Image) (w h : Nat) : List Nat :=
  encodeWalk img w h (fun p =>
    let r := p.r >>> 3
    let g := p.g >>> 3
    let b := p.b >>> 3
    let a := if 127 < p.a then 1 else 0
    let value := (r <<< 11) ||| (g <<< 6) ||| (b <<< 1) ||| a
    [value &&& 0xFF, value >>> 8])

/-- Rust `encode_rgb565`: pack `(r>>3, g>>2, b>>3)` as
`(r << 11) | (g << 5) | b`, two little-endian bytes. -/
def encode_rgb565 (img : Image) (w h : Nat) : List Nat :=
  encodeWalk img w h (fun p =>
    let r := p.r >>> 3
    let g := p.g >>> 2
    let b := p.b >>> 3
    let value := (r <<< 11) ||| (g <<< 5) ||| b
    [value &&& 0xFF, value >>> 8])

/-- Rust `encode_rgba4444`: pack the four top nibbles as
`(r << 12) | (g << 8) | (b << 4) | a`, two little-endian bytes. -/
def encode_rgba4444 (img : Image) (w h : Nat) : List Nat :=
  encodeWalk img w h (fun p =>
    let r := p.r >>> 4
    let g := p.g >>> 4
    let b := p.b >>> 4
    let a := p.a >>> 4
    let value := (r <<< 12) ||| (g <<< 8) ||| (b <<< 4) ||| a
    [value &&& 0xFF, value >>> 8])

/-- Rust `encode_la88`: bytes `[a, l]` with `l = (r + g + b) / 3`. -/
def encode_la88 (img : Image) (w h : Nat) : List Nat :=
  encodeWalk img w h (fun p => [p.a, (p.r + p.g + p.b) / 3])

/-- Rust `encode_hl8`: bytes `[h, l]` taken from the green and red channels. -/
def encode_hl8 (img : Image) (w h : Nat) : List Nat :=
  encodeWalk img w h (fun p => [p.g, p.r])

/-- Rust `encode_l8`: one byte `l = (r + g + b) / 3` per pixel. -/
def encode_l8 (img : Image) (w h : Nat) : List Nat :=
  encodeWalk img w h (fun p => [(p.r + p.g + p.b) / 3])

/-- Rust `encode_a8`: one byte `a` per pixel. -/
def encode_a8 (img : Image) (w h : Nat) : List Nat :=
  encodeWalk img w h (fun p => [p.a])

/-- Rust `encode_la44`: one byte `(l << 4) | a` with the top nibbles of the
luminance and alpha. -/
def encode_la44 (img : Image) (w h : Nat) : List Nat :=
  encodeWalk img w h (fun p =>
    let l := ((p.r + p.g + p.b) / 3) >>> 4
    let a := p.a >>> 4
    [(l <<< 4) ||| a])

/-- Rust `encode_l4`: 4-bit luminance; `dst_index` parity picks the nibble of
byte `dst_index >> 1` of a `width*height`-byte zero-initialized buffer, which
is updated by masked read-modify-write. The fold state is the output buffer
paired with `dst_index`. -/
def encode_l4 (img : Image) (w h : Nat) : List Nat :=
  ((traversal w h).foldl (fun st e =>
    let x := e.2.2 &&& 7
    let y := (e.2.2 >>> 3) &&& 7
    let img_x := e.1 + x
    let img_y := e.2.1 + y
    if w ≤ img_x ∨ h ≤ img_y then st
    else
      let p := img img_x img_y
      let l := ((p.r + p.g + p.b) / 3) >>> 4
      let byte_index := st.2 >>> 1
      let shift := (st.2 &&& 1) <<< 2
      let cleared := st.1.getD byte_index 0 &&& (0xFF ^^^ (0xF <<< shift))
      (st.1.set byte_index (cleared ||| ((l &&& 0xF) <<< shift)), st.2 + 1))
    (List.replicate (w * h) 0, 0)).1

/-- Rust `encode_a4`: 4-bit alpha, same nibble layout and buffer as
`encode_l4`. -/
def encode_a4 (img : Image) (w h : Nat) : List Nat :=
  ((traversal w h).foldl (fun st e =>
    let x := e.2.2 &&& 7
    let y := (e.2.2 >>> 3) &&& 7
    let img_x := e.1 + x
    let img_y := e.2.1 + y
    if w ≤ img_x ∨ h ≤ img_y then st
    else
      let p := img img_x img_y
      let a := p.a >>> 4
      let byte_index := st.2 >>> 1
      let shift := (st.2 &&& 1) <<< 2
      let cleared := st.1.getD byte_index 0 &&& (0xFF ^^^ (0xF <<< shift))
      (st.1.set byte_index (cleared ||| ((a &&& 0xF) <<< shift)), st.2 + 1))
    (List.replicate (w * h) 0, 0)).1

/-! ## ETC1 / ETC1A4 block path (`encode.rs`, `util.rs`) -/

/-- Inner loop of `encode_etc1` for one 4×4 sub-block `t` of the tile at
`(tx, ty)`: produces the 64-byte row-major RGBA block and (for ETC1A4) the
64-bit alpha mask. Off-canvas pixels are synthesized as `(0, 0, 0, 255)`;
each pixel's top alpha nibble is OR-ed into the mask at bit position
`((px & 3) * 4 + (py & 3)) << 2`. -/
def subBlockState (img : Image) (w h : Nat) (has_alpha : Bool)
    (tx ty t : Nat) : List Nat × Nat :=
  (List.range 16).foldl (fun st i =>
    let px := XT.getD t 0 + i % 4
    let py := YT.getD t 0 + i / 4
    let dst_x := tx + px
    let dst_y := ty + py
    let c :=
      if dst_x < w ∧ dst_y < h then
        (let p := img dst_x dst_y
         (p.r, p.g, p.b, p.a))
      else (0, 0, 0, 255)
    let offset := i * 4
    let block := ((((st.1.set offset c.1).set (offset + 1) c.2.1).set
      (offset + 2) c.2.2.1).set (offset + 3) c.2.2.2)
    let alpha :=
      if has_alpha then
        st.2 ||| (((c.2.2.2 >>> 4) &&& 0xF) <<<
          (((px &&& 3) * 4 + (py &&& 3)) <<< 2))
      else st.2
    (block, alpha))
    (List.replicate 64 0, 0)

/-- Little-endian byte serialization of a `u64` (`to_le_bytes`). -/
def u64ToLEBytes (v : Nat) : List Nat :=
  (List.range 8).map (fun i => (v >>> (8 * i)) &&& 0xFF)

/-- Reads a `u64` from 8 little-endian bytes (`from_le_bytes`). -/
def u64FromLEBytes (bytes : List Nat) : Nat :=
  (List.range 8).foldl (fun acc i => acc ||| (bytes.getD i 0 <<< (8 * i))) 0

/-- The `u64::swap_bytes` operation. -/
def swapBytes64 (v : Nat) : Nat :=
  (List.range 8).foldl
    (fun acc i => acc ||| (((v >>> (8 * i)) &&& 0xFF) <<< (8 * (7 - i)))) 0

/-- Rust `swap64` of `util.rs`: reverse the byte order of an 8-byte block
via `from_le_bytes`, `swap_bytes`, `to_le_bytes`. -/
def swap64 (bytes : List Nat) : List Nat :=
  u64ToLEBytes (swapBytes64 (u64FromLEBytes bytes))

/-- Rust `encode_etc1`: per 8×8 tile, the four 4×4 sub-blocks are assembled
by `subBlockState`; for ETC1A4 the alpha mask is emitted as 8 little-endian
bytes right before the byte-swapped compressed color block. The external
block compressor is the abstract `compress` argument. -/
def encode_etc1 (img : Image) (w h : Nat) (has_alpha : Bool)
    (compress : List Nat → List Nat) : List Nat :=
  (tileStarts h).flatMap (fun ty =>
    (tileStarts w).flatMap (fun tx =>
      (List.range 4).flatMap (fun t =>
        let st := subBlockState img w h has_alpha tx ty t
        let compressed_color := compress st.1
        (if has_alpha then u64ToLEBytes st.2 else []) ++
          swap64 compressed_color)))

/-! ## Decoders (`decode.rs`) -/

/-- The `TextureFormat` enumeration of `types.rs`. -/
inductive TextureFormat where
  | RGBA8888
  | RGB888
  | RGBA5551
  | RGB565
  | RGBA4444
  | LA88
  | HL8
  | L8
  | A8
  | LA44
  | L4
  | A4
  | ETC1
  | ETC1A4
deriving DecidableEq

/-- Tile-local x of a swizzle slot as the decoders compute it: `px & 7`. -/
def slotX (px : Nat) : Nat := px &&& 7

/-- Tile-local y of a swizzle slot as the decoders compute it:
`(px - x) >> 3` with `x = px & 7`. -/
def slotY (px : Nat) : Nat := (px - slotX px) >>> 3

/-- Output byte index used by every decoder of `decode.rs`:
`(tx + x + (height - 1 - (ty + y)) * width) * 4`. -/
def outIdx (w h : Nat) (e : Nat × Nat × Nat) : Nat :=
  (e.1 + slotX e.2.2 + (h - 1 - (e.2.1 + slotY e.2.2)) * w) * 4

/-- One decoded pixel's four output bytes `(R, G, B, A)` computed from the
source bytes fetched (relative to the current `src_idx`) by the argument. -/
abbrev ConvFn := (Nat → Nat) → Nat × Nat × Nat × Nat

/-- Per-format decode loop of `decode.rs`: each traversal slot reads `bpp`
bytes at `src_idx`, writes the four converted bytes at `oiOf e`, and
advances `src_idx` by `bpp`; an out-of-range read or write is a Rust index
panic, modelled as `none`. -/
def decodeLoopG (data : List Nat) (bpp : Nat) (oiOf : Nat × Nat × Nat → Nat)
    (conv : ConvFn) :
    List (Nat × Nat × Nat) → Nat → List Nat → Option (List Nat)
  | [], _, out => some out
  | e :: rest, src_idx, out =>
    let oi := oiOf e
    if src_idx + bpp ≤ data.length ∧ oi + 4 ≤ out.length then
      let c := conv (fun i => data.getD (src_idx + i) 0)
      decodeLoopG data bpp oiOf conv rest (src_idx + bpp)
        ((((out.set oi c.1).set (oi + 1) c.2.1).set (oi + 2) c.2.2.1).set
          (oi + 3) c.2.2.2)
    else none

/-- Byte conversion of `decode_rgba8888`: output `[d3, d2, d1, d0]`. -/
def rgba8888Conv : ConvFn := fun d => (d 3, d 2, d 1, d 0)

/-- Byte conversion of `decode_rgb888`: output `[d2, d1, d0, 0xFF]`. -/
def rgb888Conv : ConvFn := fun d => (d 2, d 1, d 0, 0xFF)

/-- Byte conversion of `decode_rgba5551`, with the source's own (internally
swapped) field names kept as written. -/
def rgba5551Conv : ConvFn := fun d =>
  let value := d 0 ||| (d 1 <<< 8)
  let r := ((value >>> 1) &&& 0x1F) <<< 3
  let g := ((value >>> 6) &&& 0x1F) <<< 3
  let b := ((value >>> 11) &&& 0x1F) <<< 3
  let a := value &&& 1
  (b ||| (b >>> 5), g ||| (g >>> 5), r ||| (r >>> 5), a * 0xFF)

/-- Byte conversion of `decode_rgb565`. -/
def rgb565Conv : ConvFn := fun d =>
  let value := d 0 ||| (d 1 <<< 8)
  let r := (value &&& 0x1F) <<< 3
  let g := ((value >>> 5) &&& 0x3F) <<< 2
  let b := ((value >>> 11) &&& 0x1F) <<< 3
  (b ||| (b >>> 5), g ||| (g >>> 6), r ||| (r >>> 5), 0xFF)

/-- Byte conversion of `decode_rgba4444`. -/
def rgba4444Conv : ConvFn := fun d =>
  let value := d 0 ||| (d 1 <<< 8)
  let r := (value >>> 4) &&& 0xF
  let g := (value >>> 8) &&& 0xF
  let b := (value >>> 12) &&& 0xF
  let a := value &&& 0xF
  (b ||| (b <<< 4), g ||| (g <<< 4), r ||| (r <<< 4), a ||| (a <<< 4))

/-- Rust `decode_rgba8888` (`bytes_per_pixel = 32 / 8`). -/
def decode_rgba8888 (data : List Nat) (w h : Nat) : Option (List Nat) :=
  decodeLoopG data (32 / 8) (outIdx w h) rgba8888Conv (traversal w h) 0
    (List.replicate (w * h * 4) 0)

/-- Rust `decode_rgb888` (`bytes_per_pixel = 24 / 8`). -/
def decode_rgb888 (data : List Nat) (w h : Nat) : Option (List Nat) :=
  decodeLoopG data (24 / 8) (outIdx w h) rgb888Conv (traversal w h) 0
    (List.replicate (w * h * 4) 0)

/-- Rust `decode_rgba5551` (`bytes_per_pixel = 16 / 8`). -/
def decode_rgba5551 (data : List Nat) (w h : Nat) : Option (List Nat) :=
  decodeLoopG data (16 / 8) (outIdx w h) rgba5551Conv (traversal w h) 0
    (List.replicate (w * h * 4) 0)

/-- Rust `decode_rgb565` (`bytes_per_pixel = 16 / 8`). -/
def decode_rgb565 (data : List Nat) (w h : Nat) : Option (List Nat) :=
  decodeLoopG data (16 / 8) (outIdx w h) rgb565Conv (traversal w h) 0
    (List.replicate (w * h * 4) 0)

/-- Rust `decode_rgba4444` (`bytes_per_pixel = 16 / 8`). -/
def decode_rgba4444 (data : List Nat) (w h : Nat) : Option (List Nat) :=
  decodeLoopG data (16 / 8) (outIdx w h) rgba4444Conv (traversal w h) 0
    (List.replicate (w * h * 4) 0)

/-- Elementwise swap of `data[ts + i]` and `data[bs + i]` for `i < n`
(the `swap_with_slice` of two disjoint row slices). -/
def swapRange (d : List Nat) (ts bs n : Nat) : List Nat :=
  (List.range n).foldl (fun d i =>
    let a := d.getD (ts + i) 0
    let b := d.getD (bs + i) 0
    (d.set (ts + i) b).set (bs + i) a) d

/-- Rust `flip_vertical` of `util.rs`: swap row `y` with row
`height - 1 - y` for every `y < height / 2` (`row_bytes = width * 4`). -/
def flip_vertical (data : List Nat) (w h : Nat) : List Nat :=
  (List.range (h / 2)).foldl (fun d y =>
    swapRange d (y * (w * 4)) ((h - 1 - y) * (w * 4)) (w * 4)) data

/-- The per-format dispatch inside `decode_texture`; the `unimplemented!`
panic of the remaining formats is modelled as `none`. -/
def decodeRaw (data : List Nat) (w h : Nat) (format : TextureFormat) :
    Option (List Nat) :=
  match format with
  | .RGBA8888 => decode_rgba8888 data w h
  | .RGB888 => decode_rgb888 data w h
  | .RGBA5551 => decode_rgba5551 data w h
  | .RGB565 => decode_rgb565 data w h
  | .RGBA4444 => decode_rgba4444 data w h
  | _ => none

/-- Rust `decode_texture`: per-format decode, `flip_vertical`'s length
assert, the vertical flip, and `ImageBuffer::from_raw`'s length check. -/
def decode_texture (data : List Nat) (w h : Nat) (format : TextureFormat) :
    Option (List Nat) :=
  (decodeRaw data w h format).bind (fun decoded =>
    if decoded.length = w * 4 * h then
      let flipped := flip_vertical decoded w h
      if flipped.length = w * h * 4 then some flipped else none
    else none)

/-! ## Specification-side definitions -/

/-- Canonical top-row-first RGBA raster of an image: byte
`(y * width + x) * 4 + channel`, channel order R, G, B, A. This is the
shape of the raw buffer of the `RgbaImage` handed to and produced by the
codec. -/
def rasterOf (img : Image) (w h : Nat) : List Nat :=
  (List.range h).flatMap (fun y =>
    (List.range w).flatMap (fun x =>
      [(img x y).r, (img x y).g, (img x y).b, (img x y).a]))

/-- Output byte index of the plain walker described by claim C10: the same
traversal but with no row inversion. -/
def specOutIdx (w : Nat) (e : Nat × Nat × Nat) : Nat :=
  (e.1 + slotX e.2.2 + (e.2.1 + slotY e.2.2) * w) * 4

/-- Plain-walker decoder of claim C10: identical traversal and per-format
byte conversion, but rows written top-first and no final flip. -/
def decodeNoFlip (data : List Nat) (w h : Nat) (format : TextureFormat) :
    Option (List Nat) :=
  match format with
  | .RGBA8888 => decodeLoopG data (32 / 8) (specOutIdx w) rgba8888Conv
      (traversal w h) 0 (List.replicate (w * h * 4) 0)
  | .RGB888 => decodeLoopG data (24 / 8) (specOutIdx w) rgb888Conv
      (traversal w h) 0 (List.replicate (w * h * 4) 0)
  | .RGBA5551 => decodeLoopG data (16 / 8) (specOutIdx w) rgba5551Conv
      (traversal w h) 0 (List.replicate (w * h * 4) 0)
  | .RGB565 => decodeLoopG data (16 / 8) (specOutIdx w) rgb565Conv
      (traversal w h) 0 (List.replicate (w * h * 4) 0)
  | .RGBA4444 => decodeLoopG data (16 / 8) (specOutIdx w) rgba4444Conv
      (traversal w h) 0 (List.replicate (w * h * 4) 0)
  | _ => none

end PicaTexture

namespace PicaTexture

/-! ## Basic facts about the table and the traversal -/

/-- Absolute x of a traversal entry's pixel, as the decoders address it. -/
def entryX (e : Nat × Nat × Nat) : Nat := e.1 + slotX e.2.2

/-- Absolute y of a traversal entry's pixel, as the decoders address it. -/
def entryY (e : Nat × Nat × Nat) : Nat := e.2.1 + slotY e.2.2

theorem lut_lt_64 : ∀ px ∈ SWIZZLE_LUT, px < 64 := by decide

theorem mem_lut_of_lt (v : Nat) (hv : v < 64) : v ∈ SWIZZLE_LUT := by
  have hall : ∀ v < 64, v ∈ SWIZZLE_LUT := by decide
  exact hall v hv

theorem slot_eq : ∀ px < 64,
    px &&& 7 = px % 8 ∧ (px >>> 3) &&& 7 = px / 8 ∧ slotY px = px / 8 := by
  decide

theorem flatMap_length_const {α β : Type} (f : α → List β) (c : Nat)
    (l : List α) (hc : ∀ a ∈ l, (f a).length = c) :
    (l.flatMap f).length = c * l.length := by
  induction l with
  | nil => simp
  | cons a l ih =>
    have ha : (f a).length = c := hc a (by simp)
    have hrest := ih (fun b hb => hc b (by simp [hb]))
    simp only [List.flatMap_cons, List.length_append, ha, hrest,
      List.length_cons]
    ring

theorem mem_tileStarts {n a : Nat} :
    a ∈ tileStarts n ↔ ∃ i, i < (n + 7) / 8 ∧ 8 * i = a := by
  simp [tileStarts]

theorem tileStarts_mem_bounds {n a : Nat} (h8 : 8 ∣ n)
    (ha : a ∈ tileStarts n) : a % 8 = 0 ∧ a + 8 ≤ n := by
  rcases mem_tileStarts.mp ha with ⟨i, hi, rfl⟩
  obtain ⟨t, rfl⟩ := h8
  omega

theorem mem_tileStarts_self {n x : Nat} (h8 : 8 ∣ n) (hx : x < n) :
    8 * (x / 8) ∈ tileStarts n := by
  refine mem_tileStarts.mpr ⟨x / 8, ?_, rfl⟩
  obtain ⟨t, rfl⟩ := h8
  omega

theorem traversal_length (w h : Nat) :
    (traversal w h).length = (h + 7) / 8 * ((w + 7) / 8) * 64 := by
  unfold traversal
  rw [flatMap_length_const _ ((w + 7) / 8 * 64)]
  · simp [tileStarts]
    ring
  · intro ty _
    rw [flatMap_length_const _ 64]
    · simp [tileStarts]
      ring
    · intro tx _
      simp [SWIZZLE_LUT]

theorem traversal_length_mul8 {w h : Nat} (h8w : 8 ∣ w) (h8h : 8 ∣ h) :
    (traversal w h).length = w * h := by
  obtain ⟨a, rfl⟩ := h8w
  obtain ⟨b, rfl⟩ := h8h
  rw [traversal_length]
  have h1 : (8 * b + 7) / 8 = b := by omega
  have h2 : (8 * a + 7) / 8 = a := by omega
  rw [h1, h2]
  ring

theorem mem_traversal {w h : Nat} {e : Nat × Nat × Nat} :
    e ∈ traversal w h ↔
      ∃ ty ∈ tileStarts h, ∃ tx ∈ tileStarts w, ∃ px ∈ SWIZZLE_LUT,
        e = (tx, ty, px) := by
  simp [traversal, List.mem_flatMap, List.mem_map, eq_comm]

theorem traversal_bounds {w h : Nat} (h8w : 8 ∣ w) (h8h : 8 ∣ h)
    {e : Nat × Nat × Nat} (he : e ∈ traversal w h) :
    entryX e < w ∧ entryY e < h ∧ e.2.2 < 64 ∧
      e.1 + 8 ≤ w ∧ e.2.1 + 8 ≤ h ∧ e.1 % 8 = 0 ∧ e.2.1 % 8 = 0 := by
  rcases mem_traversal.mp he with ⟨ty, hty, tx, htx, px, hpx, rfl⟩
  have hbx := tileStarts_mem_bounds h8w htx
  have hby := tileStarts_mem_bounds h8h hty
  have hlt := lut_lt_64 px hpx
  have hs := slot_eq px hlt
  simp only [entryX, entryY, slotX]
  rw [hs.1, hs.2.2]
  omega

theorem traversal_cover {w h X Y : Nat} (h8w : 8 ∣ w) (h8h : 8 ∣ h)
    (hX : X < w) (hY : Y < h) :
    (8 * (X / 8), 8 * (Y / 8), X % 8 + 8 * (Y % 8)) ∈ traversal w h ∧
      entryX (8 * (X / 8), 8 * (Y / 8), X % 8 + 8 * (Y % 8)) = X ∧
      entryY (8 * (X / 8), 8 * (Y / 8), X % 8 + 8 * (Y % 8)) = Y := by
  have hpx : X % 8 + 8 * (Y % 8) < 64 := by omega
  have hs := slot_eq _ hpx
  refine ⟨mem_traversal.mpr ⟨8 * (Y / 8), mem_tileStarts_self h8h hY,
    8 * (X / 8), mem_tileStarts_self h8w hX,
    X % 8 + 8 * (Y % 8), mem_lut_of_lt _ hpx, rfl⟩, ?_, ?_⟩
  · simp only [entryX, slotX]
    rw [hs.1]
    omega
  · simp only [entryY]
    rw [hs.2.2]
    omega

/-! ## Distinctness of output positions across the traversal -/

theorem digit_unique {w X1 X2 Y1 Y2 : Nat} (h1 : X1 < w) (h2 : X2 < w)
    (h : Y1 * w + X1 = Y2 * w + X2) : Y1 = Y2 ∧ X1 = X2 := by
  rcases Nat.lt_trichotomy Y1 Y2 with hlt | heq | hgt
  · have hm : (Y1 + 1) * w ≤ Y2 * w := Nat.mul_le_mul_right w hlt
    rw [Nat.add_mul, one_mul] at hm
    omega
  · subst heq
    omega
  · have hm : (Y2 + 1) * w ≤ Y1 * w := Nat.mul_le_mul_right w hgt
    rw [Nat.add_mul, one_mul] at hm
    omega

theorem pairwise_flatMap_of {α β : Type} {R : β → β → Prop} {f : α → List β} :
    ∀ {l : List α}, (∀ a ∈ l, (f a).Pairwise R) →
      l.Pairwise (fun a b => ∀ x ∈ f a, ∀ y ∈ f b, R x y) →
      (l.flatMap f).Pairwise R := by
  intro l
  induction l with
  | nil => intro _ _; simp
  | cons a l ih =>
    intro h1 h2
    rw [List.flatMap_cons, List.pairwise_append]
    rcases List.pairwise_cons.mp h2 with ⟨hhead, htail⟩
    refine ⟨h1 a (by simp), ih (fun b hb => h1 b (by simp [hb])) htail, ?_⟩
    intro x hx y hy
    rcases List.mem_flatMap.mp hy with ⟨b, hb, hyb⟩
    exact hhead b hb x hx y hyb

/-- Two distinct traversal entries address two distinct absolute pixels. -/
theorem traversal_pairwise_coords {w h : Nat} (h8w : 8 ∣ w) (h8h : 8 ∣ h) :
    (traversal w h).Pairwise
      (fun e1 e2 => entryX e1 ≠ entryX e2 ∨ entryY e1 ≠ entryY e2) := by
  have hlutpw : SWIZZLE_LUT.Pairwise (fun p1 p2 => p1 ≠ p2) := by decide
  have hts : ∀ n, (tileStarts n).Pairwise (fun a b => a ≠ b) := by
    intro n
    exact ((List.nodup_range _).map (fun a b hab => by omega))
  apply pairwise_flatMap_of
  · intro ty hty
    apply pairwise_flatMap_of
    · intro tx htx
      rw [List.pairwise_map]
      refine hlutpw.imp_of_mem ?_
      intro p1 p2 hp1 hp2 hne
      have hb1 := lut_lt_64 p1 hp1
      have hb2 := lut_lt_64 p2 hp2
      have hs1 := slot_eq p1 hb1
      have hs2 := slot_eq p2 hb2
      simp only [entryX, entryY, slotX]
      rw [hs1.1, hs2.1, hs1.2.2, hs2.2.2]
      by_contra hc
      push_neg at hc
      omega
    · refine (hts w).imp_of_mem ?_
      intro tx1 tx2 htx1 htx2 hne e1 he1 e2 he2
      rcases List.mem_map.mp he1 with ⟨p1, hp1, rfl⟩
      rcases List.mem_map.mp he2 with ⟨p2, hp2, rfl⟩
      have ha1 := (tileStarts_mem_bounds h8w htx1).1
      have ha2 := (tileStarts_mem_bounds h8w htx2).1
      have hb1 := lut_lt_64 p1 hp1
      have hb2 := lut_lt_64 p2 hp2
      have hs1 := slot_eq p1 hb1
      have hs2 := slot_eq p2 hb2
      left
      simp only [entryX, slotX]
      rw [hs1.1, hs2.1]
      omega
  · refine (hts h).imp_of_mem ?_
    intro ty1 ty2 hty1 hty2 hne e1 he1 e2 he2
    rcases List.mem_flatMap.mp he1 with ⟨tx1, htx1, he1'⟩
    rcases List.mem_flatMap.mp he2 with ⟨tx2, htx2, he2'⟩
    rcases List.mem_map.mp he1' with ⟨p1, hp1, rfl⟩
    rcases List.mem_map.mp he2' with ⟨p2, hp2, rfl⟩
    have ha1 := (tileStarts_mem_bounds h8h hty1).1
    have ha2 := (tileStarts_mem_bounds h8h hty2).1
    have hb1 := lut_lt_64 p1 hp1
    have hb2 := lut_lt_64 p2 hp2
    have hs1 := slot_eq p1 hb1
    have hs2 := slot_eq p2 hb2
    right
    simp only [entryY]
    rw [hs1.2.2, hs2.2.2]
    omega

theorem outIdx_eq (w h : Nat) (e : Nat × Nat × Nat) :
    outIdx w h e = (entryX e + (h - 1 - entryY e) * w) * 4 := rfl

theorem specOutIdx_eq (w : Nat) (e : Nat × Nat × Nat) :
    specOutIdx w e = (entryX e + entryY e * w) * 4 := rfl

theorem outIdx_le {w h : Nat} (h8w : 8 ∣ w) (h8h : 8 ∣ h)
    {e : Nat × Nat × Nat} (he : e ∈ traversal w h) :
    outIdx w h e + 4 ≤ w * h * 4 := by
  obtain ⟨hX, hY, -⟩ := traversal_bounds h8w h8h he
  have hr : (h - 1 - entryY e) * w ≤ (h - 1) * w :=
    Nat.mul_le_mul_right w (by omega)
  have hsum : (h - 1) * w + w = h * w := by
    have hh : 0 < h := by omega
    cases h with
    | zero => omega
    | succ h0 => simp [Nat.succ_mul]
  have hcomm : h * w = w * h := Nat.mul_comm h w
  rw [outIdx_eq]
  omega

theorem specOutIdx_le {w h : Nat} (h8w : 8 ∣ w) (h8h : 8 ∣ h)
    {e : Nat × Nat × Nat} (he : e ∈ traversal w h) :
    specOutIdx w e + 4 ≤ w * h * 4 := by
  obtain ⟨hX, hY, -⟩ := traversal_bounds h8w h8h he
  have hr : (entryY e) * w ≤ (h - 1) * w :=
    Nat.mul_le_mul_right w (by omega)
  have hsum : (h - 1) * w + w = h * w := by
    cases h with
    | zero => omega
    | succ h0 => simp [Nat.succ_mul]
  have hcomm : h * w = w * h := Nat.mul_comm h w
  rw [specOutIdx_eq]
  omega

theorem outIdx_pairwise {w h : Nat} (h8w : 8 ∣ w) (h8h : 8 ∣ h) :
    (traversal w h).Pairwise (fun e1 e2 =>
      outIdx w h e1 + 4 ≤ outIdx w h e2 ∨
        outIdx w h e2 + 4 ≤ outIdx w h e1) := by
  refine (traversal_pairwise_coords h8w h8h).imp_of_mem ?_
  intro e1 e2 he1 he2 hne
  obtain ⟨hX1, hY1, -⟩ := traversal_bounds h8w h8h he1
  obtain ⟨hX2, hY2, -⟩ := traversal_bounds h8w h8h he2
  have hm : entryX e1 + (h - 1 - entryY e1) * w ≠
      entryX e2 + (h - 1 - entryY e2) * w := by
    intro hc
    have heq : (h - 1 - entryY e1) * w + entryX e1 =
        (h - 1 - entryY e2) * w + entryX e2 := by omega
    have := digit_unique hX1 hX2 heq
    omega
  simp only [outIdx_eq]
  omega

theorem specOutIdx_pairwise {w h : Nat} (h8w : 8 ∣ w) (h8h : 8 ∣ h) :
    (traversal w h).Pairwise (fun e1 e2 =>
      specOutIdx w e1 + 4 ≤ specOutIdx w e2 ∨
        specOutIdx w e2 + 4 ≤ specOutIdx w e1) := by
  refine (traversal_pairwise_coords h8w h8h).imp_of_mem ?_
  intro e1 e2 he1 he2 hne
  obtain ⟨hX1, hY1, -⟩ := traversal_bounds h8w h8h he1
  obtain ⟨hX2, hY2, -⟩ := traversal_bounds h8w h8h he2
  have hm : entryX e1 + entryY e1 * w ≠ entryX e2 + entryY e2 * w := by
    intro hc
    have heq : entryY e1 * w + entryX e1 = entryY e2 * w + entryX e2 := by
      omega
    have := digit_unique hX1 hX2 heq
    omega
  simp only [specOutIdx_eq]
  omega

/-! ## Indexing a flatMap of constant-width chunks -/

theorem flatMap_getElem_const {α β : Type} {f : α → List β} {c : Nat} :
    ∀ {l : List α} (k i : Nat) (hk : k < l.length),
      (∀ a ∈ l, (f a).length = c) → i < c →
      (l.flatMap f)[c * k + i]? = (f (l.get ⟨k, hk⟩))[i]? := by
  intro l
  induction l with
  | nil => intro k i hk; simp at hk
  | cons a l ih =>
    intro k i hk hc hi
    have ha : (f a).length = c := hc a (by simp)
    rw [List.flatMap_cons]
    cases k with
    | zero =>
      have h0 : c * 0 + i = i := by omega
      rw [h0, List.getElem?_append, if_pos (by omega)]
      rfl
    | succ k0 =>
      have hk0 : k0 < l.length := by simpa using hk
      rw [List.getElem?_append_right (by rw [ha]; nlinarith [Nat.le_mul_of_pos_right c (show 0 < k0 + 1 by omega)])]
      have harith : c * (k0 + 1) + i - c = c * k0 + i := by
        rw [Nat.mul_succ]
        omega
      rw [ha, harith]
      exact ih k0 i hk0 (fun b hb => hc b (by simp [hb])) hi

/-! ## The generic decode loop: success and final contents -/

theorem decodeLoopG_spec (data : List Nat) (bpp : Nat)
    (oiOf : Nat × Nat × Nat → Nat) (conv : ConvFn) :
    ∀ (entries : List (Nat × Nat × Nat)) (src : Nat) (out : List Nat),
      0 < bpp →
      src + bpp * entries.length ≤ data.length →
      (∀ e ∈ entries, oiOf e + 4 ≤ out.length) →
      entries.Pairwise (fun e1 e2 =>
        oiOf e1 + 4 ≤ oiOf e2 ∨ oiOf e2 + 4 ≤ oiOf e1) →
      ∃ res, decodeLoopG data bpp oiOf conv entries src out = some res ∧
        res.length = out.length ∧
        (∀ p, (∀ e ∈ entries, p < oiOf e ∨ oiOf e + 4 ≤ p) →
          res[p]? = out[p]?) ∧
        (∀ k, (hk : k < entries.length) →
          res[oiOf (entries.get ⟨k, hk⟩)]? =
              some (conv (fun i => data.getD (src + bpp * k + i) 0)).1 ∧
            res[oiOf (entries.get ⟨k, hk⟩) + 1]? =
              some (conv (fun i => data.getD (src + bpp * k + i) 0)).2.1 ∧
            res[oiOf (entries.get ⟨k, hk⟩) + 2]? =
              some (conv (fun i => data.getD (src + bpp * k + i) 0)).2.2.1 ∧
            res[oiOf (entries.get ⟨k, hk⟩) + 3]? =
              some (conv (fun i => data.getD (src + bpp * k + i) 0)).2.2.2) := by
  intro entries
  induction entries with
  | nil =>
    intro src out _ _ _ _
    exact ⟨out, rfl, rfl, fun p _ => rfl, fun k hk => absurd hk (by simp)⟩
  | cons e rest ih =>
    intro src out hbpp hdata hout hpw
    have hdata' : src + (bpp * rest.length + bpp) ≤ data.length := by
      rw [← Nat.mul_succ]
      simpa using hdata
    have hoie : oiOf e + 4 ≤ out.length := hout e (by simp)
    rcases List.pairwise_cons.mp hpw with ⟨hhead, htail⟩
    set c0 := conv (fun i => data.getD (src + i) 0) with hc0
    set out' := (((out.set (oiOf e) c0.1).set (oiOf e + 1) c0.2.1).set
      (oiOf e + 2) c0.2.2.1).set (oiOf e + 3) c0.2.2.2 with hout'
    have hlen' : out'.length = out.length := by
      simp [hout', List.length_set]
    rcases ih (src + bpp) out' hbpp (by omega)
        (fun e' he' => by rw [hlen']; exact hout e' (by simp [he']))
        htail with ⟨res, hres, hreslen, huntouched, hwrites⟩
    have hstep : decodeLoopG data bpp oiOf conv (e :: rest) src out =
        some res := by
      rw [decodeLoopG]
      rw [if_pos ⟨by omega, hoie⟩]
      exact hres
    refine ⟨res, hstep, by rw [hreslen, hlen'], ?_, ?_⟩
    · intro p hp
      have hpe := hp e (by simp)
      rw [huntouched p (fun e' he' => hp e' (by simp [he']))]
      simp only [hout']
      rw [List.getElem?_set_ne (by omega), List.getElem?_set_ne (by omega),
        List.getElem?_set_ne (by omega), List.getElem?_set_ne (by omega)]
    · intro k hk
      cases k with
      | zero =>
        have hsame : ∀ j, j < 4 → res[oiOf e + j]? = out'[oiOf e + j]? := by
          intro j hj
          apply huntouched
          intro e' he'
          rcases hhead e' he' with hcase | hcase
          · left; omega
          · right; omega
        have hfun : (fun i => data.getD (src + bpp * 0 + i) 0) =
            (fun i => data.getD (src + i) 0) := by
          funext i
          simp
        have hget0 : res[oiOf e]? = some c0.1 := by
          have := hsame 0 (by omega)
          rw [Nat.add_zero] at this
          rw [this]
          simp only [hout']
          rw [List.getElem?_set_ne (by omega), List.getElem?_set_ne (by omega),
            List.getElem?_set_ne (by omega)]
          exact List.getElem?_set_self (by simpa using (by omega : oiOf e < out.length))
        have hget1 : res[oiOf e + 1]? = some c0.2.1 := by
          rw [hsame 1 (by omega)]
          simp only [hout']
          rw [List.getElem?_set_ne (by omega), List.getElem?_set_ne (by omega)]
          exact List.getElem?_set_self (by simp [List.length_set]; omega)
        have hget2 : res[oiOf e + 2]? = some c0.2.2.1 := by
          rw [hsame 2 (by omega)]
          simp only [hout']
          rw [List.getElem?_set_ne (by omega)]
          exact List.getElem?_set_self (by simp [List.length_set]; omega)
        have hget3 : res[oiOf e + 3]? = some c0.2.2.2 := by
          rw [hsame 3 (by omega)]
          simp only [hout']
          exact List.getElem?_set_self (by simp [List.length_set]; omega)
        simp only [List.get, hfun]
        exact ⟨hget0, hget1, hget2, hget3⟩
      | succ k0 =>
        have hk0 : k0 < rest.length := by simpa using hk
        have hfun : (fun i => data.getD (src + bpp + bpp * k0 + i) 0) =
            (fun i => data.getD (src + bpp * (k0 + 1) + i) 0) := by
          funext i
          rw [Nat.mul_succ]
          congr 2
          omega
        have hgetk : (e :: rest).get ⟨k0 + 1, hk⟩ = rest.get ⟨k0, hk0⟩ := rfl
        rw [hgetk]
        have := hwrites k0 hk0
        rw [hfun] at this
        exact this

/-- A successful run of the decode loop needs the whole packed payload. -/
theorem decodeLoopG_some_le (data : List Nat) (bpp : Nat)
    (oiOf : Nat × Nat × Nat → Nat) (conv : ConvFn) :
    ∀ (entries : List (Nat × Nat × Nat)) (src : Nat) (out res : List Nat),
      decodeLoopG data bpp oiOf conv entries src out = some res →
      entries ≠ [] → src + bpp * entries.length ≤ data.length := by
  intro entries
  induction entries with
  | nil => intro src out res _ hne; exact absurd rfl hne
  | cons e rest ih =>
    intro src out res hrun hne
    rw [decodeLoopG] at hrun
    by_cases hguard : src + bpp ≤ data.length ∧ oiOf e + 4 ≤ out.length
    · rw [if_pos hguard] at hrun
      by_cases hrestnil : rest = []
      · subst hrestnil
        simpa using hguard.1
      · have hrec := ih (src + bpp) _ res hrun hrestnil
        rw [List.length_cons, Nat.mul_succ]
        omega
    · rw [if_neg hguard] at hrun
      exact absurd hrun (by simp)

/-! ## Length preservation and contents of the vertical flip -/

theorem foldl_preserves_length {α : Type} (g : List Nat → α → List Nat)
    (hg : ∀ d a, (g d a).length = d.length) (l : List α) :
    ∀ d, (l.foldl g d).length = d.length := by
  induction l with
  | nil => intro d; rfl
  | cons a l ih => intro d; rw [List.foldl_cons, ih, hg]

theorem swapRange_length (d : List Nat) (ts bs n : Nat) :
    (swapRange d ts bs n).length = d.length := by
  unfold swapRange
  apply foldl_preserves_length
  intro d0 i
  simp [List.length_set]

theorem flip_vertical_length (data : List Nat) (w h : Nat) :
    (flip_vertical data w h).length = data.length := by
  unfold flip_vertical
  apply foldl_preserves_length
  intro d y
  exact swapRange_length _ _ _ _

/-- Rows of width `rb` partition positions: `r * rb + j` with `j < rb` lies
in row window `u` exactly when `u = r`. -/
theorem row_window {rb r j u : Nat} (hj : j < rb) :
    (u * rb ≤ r * rb + j ∧ r * rb + j < u * rb + rb) ↔ u = r := by
  constructor
  · rintro ⟨h1, h2⟩
    rcases Nat.lt_trichotomy u r with hlt | heq | hgt
    · have hm : (u + 1) * rb ≤ r * rb := Nat.mul_le_mul_right rb hlt
      rw [Nat.succ_mul] at hm
      omega
    · exact heq
    · have hm : (r + 1) * rb ≤ u * rb := Nat.mul_le_mul_right rb hgt
      rw [Nat.succ_mul] at hm
      omega
  · rintro rfl
    omega

theorem swapRange_getElem (d : List Nat) (ts bs : Nat) :
    ∀ (n : Nat), ts + n ≤ bs → bs + n ≤ d.length → ∀ p,
      (swapRange d ts bs n)[p]? =
        if ts ≤ p ∧ p < ts + n then d[bs + (p - ts)]?
        else if bs ≤ p ∧ p < bs + n then d[ts + (p - bs)]?
        else d[p]? := by
  intro n
  induction n with
  | zero =>
    intro _ _ p
    rw [if_neg (by omega), if_neg (by omega)]
    rfl
  | succ n ih =>
    intro hdisj hlen p
    have hd' : ts + n ≤ bs := by omega
    have hl' : bs + n ≤ d.length := by omega
    have hunfold : swapRange d ts bs (n + 1) =
        ((swapRange d ts bs n).set (ts + n)
          ((swapRange d ts bs n).getD (bs + n) 0)).set (bs + n)
          ((swapRange d ts bs n).getD (ts + n) 0) := by
      simp only [swapRange, List.range_succ, List.foldl_append,
        List.foldl_cons, List.foldl_nil]
    have hSlen : (swapRange d ts bs n).length = d.length :=
      swapRange_length _ _ _ _
    have haval : (swapRange d ts bs n).getD (ts + n) 0 = d.getD (ts + n) 0 := by
      rw [List.getD_eq_getElem?_getD, List.getD_eq_getElem?_getD,
        ih hd' hl' (ts + n), if_neg (by omega), if_neg (by omega)]
    have hbval : (swapRange d ts bs n).getD (bs + n) 0 = d.getD (bs + n) 0 := by
      rw [List.getD_eq_getElem?_getD, List.getD_eq_getElem?_getD,
        ih hd' hl' (bs + n), if_neg (by omega), if_neg (by omega)]
    rw [hunfold, haval, hbval]
    by_cases hp1 : p = bs + n
    · subst hp1
      rw [List.getElem?_set_self (by rw [List.length_set, hSlen]; omega)]
      rw [if_neg (by omega), if_pos (by omega)]
      have hsub : bs + n - bs = n := by omega
      rw [hsub, List.getD_eq_getElem?_getD,
        List.getElem?_eq_getElem (l := d) (by omega)]
      rfl
    · rw [List.getElem?_set_ne (by omega)]
      by_cases hp2 : p = ts + n
      · subst hp2
        rw [List.getElem?_set_self (by rw [hSlen]; omega)]
        rw [if_pos (by omega)]
        have hsub : ts + n - ts = n := by omega
        rw [hsub, List.getD_eq_getElem?_getD,
          List.getElem?_eq_getElem (l := d) (by omega)]
        rfl
      · rw [List.getElem?_set_ne (by omega)]
        rw [ih hd' hl' p]
        by_cases hc1 : ts ≤ p ∧ p < ts + n
        · rw [if_pos hc1, if_pos (by omega)]
        · by_cases hc2 : bs ≤ p ∧ p < bs + n
          · rw [if_neg (by omega), if_pos hc2, if_neg (by omega),
              if_pos (by omega)]
          · rw [if_neg (by omega), if_neg (by omega), if_neg (by omega),
              if_neg (by omega)]

theorem flip_fold_char (w h : Nat) (data : List Nat) (hh2 : h % 2 = 0)
    (hlen : data.length = h * (w * 4)) :
    ∀ (m : Nat), m ≤ h / 2 → ∀ (r j : Nat), j < w * 4 → r < h →
      ((List.range m).foldl (fun d y =>
          swapRange d (y * (w * 4)) ((h - 1 - y) * (w * 4)) (w * 4))
        data)[r * (w * 4) + j]? =
        if r < m ∨ h - m ≤ r then data[(h - 1 - r) * (w * 4) + j]?
        else data[r * (w * 4) + j]? := by
  intro m
  induction m with
  | zero =>
    intro _ r j hj hr
    rw [if_neg (by omega)]
    rfl
  | succ m ih =>
    intro hm r j hj hr
    have hm' : m ≤ h / 2 := by omega
    rw [List.range_succ, List.foldl_append, List.foldl_cons, List.foldl_nil]
    have hdmlen : ((List.range m).foldl (fun d y =>
        swapRange d (y * (w * 4)) ((h - 1 - y) * (w * 4)) (w * 4))
          data).length = data.length :=
      foldl_preserves_length _ (fun d y => swapRange_length _ _ _ _) _ _
    have hrowm : m + 1 ≤ h - 1 - m := by omega
    have hdisj : m * (w * 4) + w * 4 ≤ (h - 1 - m) * (w * 4) := by
      have := Nat.mul_le_mul_right (w * 4) hrowm
      rw [Nat.succ_mul] at this
      omega
    have hblen : (h - 1 - m) * (w * 4) + w * 4 ≤
        ((List.range m).foldl (fun d y =>
          swapRange d (y * (w * 4)) ((h - 1 - y) * (w * 4)) (w * 4))
            data).length := by
      rw [hdmlen, hlen]
      have h1 : h - 1 - m + 1 ≤ h := by omega
      have := Nat.mul_le_mul_right (w * 4) h1
      rw [Nat.succ_mul] at this
      omega
    rw [swapRange_getElem _ _ _ _ hdisj hblen]
    by_cases hcm : r = m
    · rw [if_pos ((row_window hj).mpr hcm.symm)]
      have hsub : r * (w * 4) + j - m * (w * 4) = j := by
        rw [hcm]
        omega
      rw [hsub]
      rw [ih hm' (h - 1 - m) j hj (by omega)]
      rw [if_neg (by omega), if_pos (by omega), hcm]
    · by_cases hcb : r = h - 1 - m
      · rw [if_neg (fun hc => hcm ((row_window hj).mp hc).symm)]
        rw [if_pos ((row_window hj).mpr hcb.symm)]
        have hsub : r * (w * 4) + j - (h - 1 - m) * (w * 4) = j := by
          rw [hcb]
          omega
        rw [hsub]
        rw [ih hm' m j hj (by omega)]
        rw [if_neg (by omega)]
        have hrr : h - 1 - r = m := by omega
        rw [if_pos (by omega), hrr]
      · rw [if_neg (fun hc => hcm ((row_window hj).mp hc).symm)]
        rw [if_neg (fun hc => hcb ((row_window hj).mp hc).symm)]
        rw [ih hm' r j hj hr]
        by_cases hold : r < m ∨ h - m ≤ r
        · rw [if_pos hold, if_pos (by omega)]
        · rw [if_neg hold, if_neg (by omega)]

theorem flip_vertical_getElem {w h : Nat} {data : List Nat}
    (hh2 : h % 2 = 0) (hlen : data.length = h * (w * 4))
    {r j : Nat} (hj : j < w * 4) (hr : r < h) :
    (flip_vertical data w h)[r * (w * 4) + j]? =
      data[(h - 1 - r) * (w * 4) + j]? := by
  unfold flip_vertical
  rw [flip_fold_char w h data hh2 hlen (h / 2) (Nat.le_refl _) r j hj hr]
  rw [if_pos (by omega)]

/-! ## Characterizing the uncompressed encoders -/

theorem flatMap_congr_mem {α β : Type} {f g : α → List β} :
    ∀ {l : List α}, (∀ a ∈ l, f a = g a) → l.flatMap f = l.flatMap g := by
  intro l
  induction l with
  | nil => intro _; rfl
  | cons a l ih =>
    intro hfg
    rw [List.flatMap_cons, List.flatMap_cons, hfg a (by simp),
      ih (fun b hb => hfg b (by simp [hb]))]

/-- With full-tile dimensions no slot is skipped: every encoder emits
exactly the per-pixel bytes of the pixel its traversal entry addresses. -/
theorem encodeWalk_eq_flatMap {w h : Nat} (h8w : 8 ∣ w) (h8h : 8 ∣ h)
    (img : Image) (pix : Pixel → List Nat) :
    encodeWalk img w h pix =
      (traversal w h).flatMap (fun e => pix (img (entryX e) (entryY e))) := by
  unfold encodeWalk
  apply flatMap_congr_mem
  intro e he
  obtain ⟨hX, hY, hpx, -⟩ := traversal_bounds h8w h8h he
  have hs := slot_eq e.2.2 hpx
  simp only [entryX, entryY, slotX] at hX hY ⊢
  rw [hs.2.1]
  rw [hs.2.2] at hY ⊢
  rw [if_neg (by omega)]

theorem encodeWalk_length {w h : Nat} (bpp : Nat) (h8w : 8 ∣ w) (h8h : 8 ∣ h)
    (img : Image) (pix : Pixel → List Nat)
    (hpix : ∀ p, (pix p).length = bpp) :
    (encodeWalk img w h pix).length = bpp * (w * h) := by
  rw [encodeWalk_eq_flatMap h8w h8h,
    flatMap_length_const _ bpp _ (fun e _ => hpix _),
    traversal_length_mul8 h8w h8h]

theorem encodeWalk_getElem {w h bpp : Nat} (h8w : 8 ∣ w) (h8h : 8 ∣ h)
    (img : Image) (pix : Pixel → List Nat)
    (hpix : ∀ p, (pix p).length = bpp) (k i : Nat)
    (hk : k < (traversal w h).length) (hi : i < bpp) :
    (encodeWalk img w h pix)[bpp * k + i]? =
      (pix (img (entryX ((traversal w h).get ⟨k, hk⟩))
        (entryY ((traversal w h).get ⟨k, hk⟩))))[i]? := by
  rw [encodeWalk_eq_flatMap h8w h8h]
  exact flatMap_getElem_const k i hk (fun e _ => hpix _) hi

/-! ## Characterizing the canonical raster -/

theorem rasterOf_length (img : Image) (w h : Nat) :
    (rasterOf img w h).length = 4 * w * h := by
  unfold rasterOf
  rw [flatMap_length_const _ (4 * w)]
  · simp
  · intro y _
    rw [flatMap_length_const _ 4]
    · simp
    · intro x _
      simp

theorem rasterOf_getElem (img : Image) {w h X Y c : Nat}
    (hX : X < w) (hY : Y < h) (hc : c < 4) :
    (rasterOf img w h)[(Y * w + X) * 4 + c]? =
      [(img X Y).r, (img X Y).g, (img X Y).b, (img X Y).a][c]? := by
  unfold rasterOf
  have hidx : (Y * w + X) * 4 + c = 4 * w * Y + (X * 4 + c) := by ring
  rw [hidx]
  rw [flatMap_getElem_const (c := 4 * w) Y (X * 4 + c) (by simpa using hY)
    (fun y _ => by
      rw [flatMap_length_const _ 4 _ (fun x _ => by simp)]
      simp) (by omega)]
  rw [List.get_range]
  have hidx2 : X * 4 + c = 4 * X + c := by ring
  rw [hidx2]
  rw [flatMap_getElem_const (c := 4) X c (by simpa using hX)
    (fun x _ => by simp) hc]
  rw [List.get_range]

/-! ## Generic round trip through one uncompressed format -/

theorem walkRoundtrip {img : Image} {w h : Nat} (pix : Pixel → List Nat)
    (conv : ConvFn) (bpp : Nat) (post : Pixel → Pixel)
    (h8w : 8 ∣ w) (h8h : 8 ∣ h) (hw : 0 < w) (hh : 0 < h)
    (hbytes : ImageBytes img) (hbpp : 0 < bpp)
    (hpixlen : ∀ p, (pix p).length = bpp)
    (hdep : ∀ d1 d2 : Nat → Nat, (∀ i, i < bpp → d1 i = d2 i) →
      conv d1 = conv d2)
    (hcompat : ∀ p, PixelBytes p →
      conv (fun i => (pix p).getD i 0) =
        ((post p).r, (post p).g, (post p).b, (post p).a)) :
    ∃ res, decodeLoopG (encodeWalk img w h pix) bpp (outIdx w h) conv
        (traversal w h) 0 (List.replicate (w * h * 4) 0) = some res ∧
      res.length = w * h * 4 ∧
      flip_vertical res w h = rasterOf (fun x y => post (img x y)) w h := by
  have hLlen : (traversal w h).length = w * h := traversal_length_mul8 h8w h8h
  have hdatalen : (encodeWalk img w h pix).length = bpp * (w * h) :=
    encodeWalk_length bpp h8w h8h img pix hpixlen
  obtain ⟨res, hres, hreslen, -, hwrites⟩ :=
    decodeLoopG_spec (encodeWalk img w h pix) bpp (outIdx w h) conv
      (traversal w h) 0 (List.replicate (w * h * 4) 0) hbpp
      (by rw [hdatalen, hLlen]; omega)
      (fun e he => by
        rw [List.length_replicate]
        exact outIdx_le h8w h8h he)
      (outIdx_pairwise h8w h8h)
  rw [List.length_replicate] at hreslen
  refine ⟨res, hres, hreslen, ?_⟩
  have hh2 : h % 2 = 0 := by
    obtain ⟨t, rfl⟩ := h8h
    omega
  apply List.ext_get?
  intro n
  rw [List.get?_eq_getElem?, List.get?_eq_getElem?]
  by_cases hn : n < w * h * 4
  · obtain ⟨X, Y, c, hXw, hYh, hc4, hn4⟩ :
        ∃ X Y c, X < w ∧ Y < h ∧ c < 4 ∧ (Y * w + X) * 4 + c = n := by
      refine ⟨n / 4 % w, n / 4 / w, n % 4, Nat.mod_lt _ hw, ?_, by omega, ?_⟩
      · by_contra hc2
        push_neg at hc2
        have hge : w * h ≤ w * (n / 4 / w) := Nat.mul_le_mul_left w hc2
        have hdm := Nat.div_add_mod (n / 4) w
        omega
      · have hdm := Nat.div_add_mod (n / 4) w
        have hcm : n / 4 / w * w = w * (n / 4 / w) := Nat.mul_comm _ _
        omega
    subst hn4
    have hrow : (Y * w + X) * 4 + c = Y * (w * 4) + (X * 4 + c) := by ring
    rw [hrow, flip_vertical_getElem hh2 (by rw [hreslen]; ring)
      (by omega) hYh]
    have hrow2 : Y * (w * 4) + (X * 4 + c) = (Y * w + X) * 4 + c := by ring
    rw [hrow2, rasterOf_getElem _ hXw hYh hc4]
    have hq : (h - 1 - Y) * (w * 4) + (X * 4 + c) =
        (X + (h - 1 - Y) * w) * 4 + c := by
      set R := h - 1 - Y
      ring
    rw [hq]
    obtain ⟨hmem, hex, hey⟩ := traversal_cover h8w h8h hXw hYh
    obtain ⟨⟨k, hk⟩, hek⟩ := List.mem_iff_get.mp hmem
    have hpf : ∀ i, i < bpp →
        (encodeWalk img w h pix).getD (0 + bpp * k + i) 0 =
          (pix (img X Y)).getD i 0 := by
      intro i hi
      have h0 : 0 + bpp * k + i = bpp * k + i := by omega
      rw [h0, List.getD_eq_getElem?_getD, List.getD_eq_getElem?_getD,
        encodeWalk_getElem h8w h8h img pix hpixlen k i hk hi, hek, hex, hey]
    have hwk := hwrites k hk
    rw [hek] at hwk
    have hoi : outIdx w h (8 * (X / 8), 8 * (Y / 8), X % 8 + 8 * (Y % 8)) =
        (X + (h - 1 - Y) * w) * 4 := by
      rw [outIdx_eq, hex, hey]
    rw [hoi] at hwk
    have hcv : conv (fun i =>
        (encodeWalk img w h pix).getD (0 + bpp * k + i) 0) =
        ((post (img X Y)).r, (post (img X Y)).g, (post (img X Y)).b,
          (post (img X Y)).a) := by
      rw [hdep _ _ hpf]
      exact hcompat _ (hbytes X Y)
    rw [hcv] at hwk
    have hcc : c = 0 ∨ c = 1 ∨ c = 2 ∨ c = 3 := by omega
    rcases hcc with rfl | rfl | rfl | rfl
    · simpa using hwk.1
    · simpa using hwk.2.1
    · simpa using hwk.2.2.1
    · simpa using hwk.2.2.2
  · have h1 : (flip_vertical res w h)[n]? = none := by
      apply List.getElem?_eq_none
      rw [flip_vertical_length, hreslen]
      omega
    have h2 : (rasterOf (fun x y => post (img x y)) w h)[n]? = none := by
      apply List.getElem?_eq_none
      rw [rasterOf_length]
      have hcm : 4 * w * h = w * h * 4 := by ring
      omega
    rw [h1, h2]

/-! ## Success of the decoders on correctly sized buffers -/

theorem decode_format_ok (conv : ConvFn) (bpp : Nat) {w h : Nat}
    (data : List Nat)
    (h8w : 8 ∣ w) (h8h : 8 ∣ h) (hbpp : 0 < bpp)
    (hdata : bpp * (w * h) ≤ data.length) :
    ∃ res, decodeLoopG data bpp (outIdx w h) conv (traversal w h) 0
        (List.replicate (w * h * 4) 0) = some res ∧
      res.length = w * h * 4 := by
  obtain ⟨res, hres, hlen, -, -⟩ :=
    decodeLoopG_spec data bpp (outIdx w h) conv (traversal w h) 0
      (List.replicate (w * h * 4) 0) hbpp
      (by rw [traversal_length_mul8 h8w h8h]; omega)
      (fun e he => by
        rw [List.length_replicate]
        exact outIdx_le h8w h8h he)
      (outIdx_pairwise h8w h8h)
  exact ⟨res, hres, by simpa using hlen⟩

/-! ## The two row inversions cancel against the plain walker -/

theorem noflipEquiv (conv : ConvFn) (bpp : Nat) {w h : Nat}
    (data : List Nat)
    (h8w : 8 ∣ w) (h8h : 8 ∣ h) (hw : 0 < w) (hh : 0 < h) (hbpp : 0 < bpp)
    (hdata : bpp * (w * h) ≤ data.length) :
    (decodeLoopG data bpp (outIdx w h) conv (traversal w h) 0
        (List.replicate (w * h * 4) 0)).map (fun d => flip_vertical d w h) =
      decodeLoopG data bpp (specOutIdx w) conv (traversal w h) 0
        (List.replicate (w * h * 4) 0) := by
  have hLlen : (traversal w h).length = w * h := traversal_length_mul8 h8w h8h
  obtain ⟨res, hres, hreslen, -, hwrites⟩ :=
    decodeLoopG_spec data bpp (outIdx w h) conv (traversal w h) 0
      (List.replicate (w * h * 4) 0) hbpp (by rw [hLlen]; omega)
      (fun e he => by
        rw [List.length_replicate]
        exact outIdx_le h8w h8h he)
      (outIdx_pairwise h8w h8h)
  obtain ⟨res2, hres2, hres2len, -, hwrites2⟩ :=
    decodeLoopG_spec data bpp (specOutIdx w) conv (traversal w h) 0
      (List.replicate (w * h * 4) 0) hbpp (by rw [hLlen]; omega)
      (fun e he => by
        rw [List.length_replicate]
        exact specOutIdx_le h8w h8h he)
      (specOutIdx_pairwise h8w h8h)
  rw [List.length_replicate] at hreslen hres2len
  rw [hres, hres2]
  simp only [Option.map_some']
  congr 1
  have hh2 : h % 2 = 0 := by
    obtain ⟨t, rfl⟩ := h8h
    omega
  apply List.ext_get?
  intro n
  rw [List.get?_eq_getElem?, List.get?_eq_getElem?]
  by_cases hn : n < w * h * 4
  · obtain ⟨X, Y, c, hXw, hYh, hc4, hn4⟩ :
        ∃ X Y c, X < w ∧ Y < h ∧ c < 4 ∧ (Y * w + X) * 4 + c = n := by
      refine ⟨n / 4 % w, n / 4 / w, n % 4, Nat.mod_lt _ hw, ?_, by omega, ?_⟩
      · by_contra hc2
        push_neg at hc2
        have hge : w * h ≤ w * (n / 4 / w) := Nat.mul_le_mul_left w hc2
        have hdm := Nat.div_add_mod (n / 4) w
        omega
      · have hdm := Nat.div_add_mod (n / 4) w
        have hcm : n / 4 / w * w = w * (n / 4 / w) := Nat.mul_comm _ _
        omega
    subst hn4
    have hrow : (Y * w + X) * 4 + c = Y * (w * 4) + (X * 4 + c) := by ring
    rw [hrow, flip_vertical_getElem hh2 (by rw [hreslen]; ring)
      (by omega) hYh]
    have hq : (h - 1 - Y) * (w * 4) + (X * 4 + c) =
        (X + (h - 1 - Y) * w) * 4 + c := by
      set R := h - 1 - Y
      ring
    rw [hq]
    obtain ⟨hmem, hex, hey⟩ := traversal_cover h8w h8h hXw hYh
    obtain ⟨⟨k, hk⟩, hek⟩ := List.mem_iff_get.mp hmem
    have hwk := hwrites k hk
    have hwk2 := hwrites2 k hk
    rw [hek] at hwk hwk2
    have hoi : outIdx w h (8 * (X / 8), 8 * (Y / 8), X % 8 + 8 * (Y % 8)) =
        (X + (h - 1 - Y) * w) * 4 := by
      rw [outIdx_eq, hex, hey]
    have hoi2 : specOutIdx w (8 * (X / 8), 8 * (Y / 8), X % 8 + 8 * (Y % 8)) =
        (X + Y * w) * 4 := by
      rw [specOutIdx_eq, hex, hey]
    rw [hoi] at hwk
    rw [hoi2] at hwk2
    have hq2 : Y * (w * 4) + (X * 4 + c) = (X + Y * w) * 4 + c := by ring
    rw [hq2]
    have hcc : c = 0 ∨ c = 1 ∨ c = 2 ∨ c = 3 := by omega
    rcases hcc with rfl | rfl | rfl | rfl
    · simpa [hwk2.1] using hwk.1
    · simpa [hwk2.2.1] using hwk.2.1
    · simpa [hwk2.2.2.1] using hwk.2.2.1
    · simpa [hwk2.2.2.2] using hwk.2.2.2
  · have h1 : (flip_vertical res w h)[n]? = none := by
      apply List.getElem?_eq_none
      rw [flip_vertical_length, hreslen]
      omega
    have h2 : res2[n]? = none := by
      apply List.getElem?_eq_none
      rw [hres2len]
      omega
    rw [h1, h2]

/-! ## Bit-arithmetic bridges for the packed 16-bit formats -/

theorem or_eq_add_pow {k u v : Nat} (hu : 2 ^ k ∣ u) (hv : v < 2 ^ k) :
    u ||| v = u + v := by
  obtain ⟨c, rfl⟩ := hu
  apply Nat.eq_of_testBit_eq
  intro i
  rw [Nat.testBit_or, Nat.testBit_mul_pow_two_add c hv i]
  have hsh : 2 ^ k * c = c <<< k := by
    rw [Nat.shiftLeft_eq]
    ring
  rw [hsh, Nat.testBit_shiftLeft]
  by_cases hik : i < k
  · have hge : ¬(i ≥ k) := by omega
    simp [hik, hge]
  · have hge : i ≥ k := by omega
    have hv0 : v.testBit i = false :=
      Nat.testBit_lt_two_pow
        (lt_of_lt_of_le hv (Nat.pow_le_pow_right (by omega) (by omega)))
    simp [hik, hge, hv0]

theorem or_eq_add_lit (k m : Nat) {u v : Nat} (hm : 2 ^ k = m) (hu : m ∣ u)
    (hv : v < m) : u ||| v = u + v := by
  subst hm
  exact or_eq_add_pow hu hv

/-- Splitting a value into its two little-endian bytes and recombining them
is the identity. -/
theorem le_bytes_recombine (value : Nat) :
    (value &&& 0xFF) ||| ((value >>> 8) <<< 8) = value := by
  have h1 : value &&& 0xFF = value % 256 := by
    have h := Nat.and_pow_two_sub_one_eq_mod value 8
    norm_num at h
    exact h
  have h2 : (value >>> 8) <<< 8 = value / 256 * 256 := by
    rw [Nat.shiftRight_eq_div_pow, Nat.shiftLeft_eq]
  rw [h1, h2, Nat.lor_comm,
    or_eq_add_lit 8 256 (by norm_num) ⟨value / 256, Nat.mul_comm _ _⟩
      (by omega)]
  omega

/-! ## Bit-depth expansion rules and per-pixel round-trip images -/

/-- Expansion of a truncated 5-bit channel on decode:
`(q << 3) | ((q << 3) >> 5)`. -/
def expand5 (q : Nat) : Nat := (q <<< 3) ||| ((q <<< 3) >>> 5)

/-- Expansion of a truncated 6-bit channel on decode:
`(q << 2) | ((q << 2) >> 6)`. -/
def expand6 (q : Nat) : Nat := (q <<< 2) ||| ((q <<< 2) >>> 6)

/-- Expansion of a truncated 4-bit channel on decode: `q | (q << 4)`. -/
def expand4 (q : Nat) : Nat := q ||| (q <<< 4)

/-- Per-pixel result of an RGB888 round trip: alpha is forced opaque. -/
def post888 (p : Pixel) : Pixel := ⟨p.r, p.g, p.b, 0xFF⟩

/-- Per-pixel result of an RGBA5551 round trip. -/
def post5551 (p : Pixel) : Pixel :=
  ⟨expand5 (p.r >>> 3), expand5 (p.g >>> 3), expand5 (p.b >>> 3),
    (if 127 < p.a then 1 else 0) * 0xFF⟩

/-- Per-pixel result of an RGB565 round trip. -/
def post565 (p : Pixel) : Pixel :=
  ⟨expand5 (p.r >>> 3), expand6 (p.g >>> 2), expand5 (p.b >>> 3), 0xFF⟩

/-- Per-pixel result of an RGBA4444 round trip. -/
def post4444 (p : Pixel) : Pixel :=
  ⟨expand4 (p.r >>> 4), expand4 (p.g >>> 4), expand4 (p.b >>> 4),
    expand4 (p.a >>> 4)⟩

/-! ## Evaluating each byte conversion on a packed value -/

theorem conv5551_eval (value : Nat) :
    rgba5551Conv (fun i => [value &&& 0xFF, value >>> 8].getD i 0) =
      (expand5 (value / 2048 % 32), expand5 (value / 64 % 32),
        expand5 (value / 2 % 32), value % 2 * 0xFF) := by
  have hd0 : [value &&& 0xFF, value >>> 8].getD 0 0 = value &&& 0xFF := rfl
  have hd1 : [value &&& 0xFF, value >>> 8].getD 1 0 = value >>> 8 := rfl
  simp only [rgba5551Conv, hd0, hd1, le_bytes_recombine]
  have h11 : (value >>> 11) &&& 0x1F = value / 2048 % 32 := by
    have h := Nat.and_pow_two_sub_one_eq_mod (value >>> 11) 5
    norm_num at h
    rw [h, Nat.shiftRight_eq_div_pow]
  have h6 : (value >>> 6) &&& 0x1F = value / 64 % 32 := by
    have h := Nat.and_pow_two_sub_one_eq_mod (value >>> 6) 5
    norm_num at h
    rw [h, Nat.shiftRight_eq_div_pow]
  have h1 : (value >>> 1) &&& 0x1F = value / 2 % 32 := by
    have h := Nat.and_pow_two_sub_one_eq_mod (value >>> 1) 5
    norm_num at h
    rw [h, Nat.shiftRight_eq_div_pow]
  have ha : value &&& 1 = value % 2 := Nat.and_one_is_mod value
  rw [h11, h6, h1, ha]
  rfl

theorem conv565_eval (value : Nat) :
    rgb565Conv (fun i => [value &&& 0xFF, value >>> 8].getD i 0) =
      (expand5 (value / 2048 % 32), expand6 (value / 32 % 64),
        expand5 (value % 32), 0xFF) := by
  have hd0 : [value &&& 0xFF, value >>> 8].getD 0 0 = value &&& 0xFF := rfl
  have hd1 : [value &&& 0xFF, value >>> 8].getD 1 0 = value >>> 8 := rfl
  simp only [rgb565Conv, hd0, hd1, le_bytes_recombine]
  have h11 : (value >>> 11) &&& 0x1F = value / 2048 % 32 := by
    have h := Nat.and_pow_two_sub_one_eq_mod (value >>> 11) 5
    norm_num at h
    rw [h, Nat.shiftRight_eq_div_pow]
  have h5 : (value >>> 5) &&& 0x3F = value / 32 % 64 := by
    have h := Nat.and_pow_two_sub_one_eq_mod (value >>> 5) 6
    norm_num at h
    rw [h, Nat.shiftRight_eq_div_pow]
  have h0 : value &&& 0x1F = value % 32 := by
    have h := Nat.and_pow_two_sub_one_eq_mod value 5
    norm_num at h
    exact h
  rw [h11, h5, h0]
  rfl

theorem conv4444_eval (value : Nat) :
    rgba4444Conv (fun i => [value &&& 0xFF, value >>> 8].getD i 0) =
      (expand4 (value / 4096 % 16), expand4 (value / 256 % 16),
        expand4 (value / 16 % 16), expand4 (value % 16)) := by
  have hd0 : [value &&& 0xFF, value >>> 8].getD 0 0 = value &&& 0xFF := rfl
  have hd1 : [value &&& 0xFF, value >>> 8].getD 1 0 = value >>> 8 := rfl
  simp only [rgba4444Conv, hd0, hd1, le_bytes_recombine]
  have h12 : (value >>> 12) &&& 0xF = value / 4096 % 16 := by
    have h := Nat.and_pow_two_sub_one_eq_mod (value >>> 12) 4
    norm_num at h
    rw [h, Nat.shiftRight_eq_div_pow]
  have h8 : (value >>> 8) &&& 0xF = value / 256 % 16 := by
    have h := Nat.and_pow_two_sub_one_eq_mod (value >>> 8) 4
    norm_num at h
    rw [h, Nat.shiftRight_eq_div_pow]
  have h4 : (value >>> 4) &&& 0xF = value / 16 % 16 := by
    have h := Nat.and_pow_two_sub_one_eq_mod (value >>> 4) 4
    norm_num at h
    rw [h, Nat.shiftRight_eq_div_pow]
  have h0 : value &&& 0xF = value % 16 := by
    have h := Nat.and_pow_two_sub_one_eq_mod value 4
    norm_num at h
    exact h
  rw [h12, h8, h4, h0]
  rfl

/-! ## Packed values in arithmetic form -/

theorem pack5551_eq {r g b a : Nat} (hr : r < 32) (hg : g < 32) (hb : b < 32)
    (ha : a < 2) :
    (r <<< 11) ||| (g <<< 6) ||| (b <<< 1) ||| a =
      r * 2048 + g * 64 + b * 2 + a := by
  rw [Nat.shiftLeft_eq, Nat.shiftLeft_eq, Nat.shiftLeft_eq]
  norm_num
  have hd1 : (2048 : Nat) ∣ r * 2048 := ⟨r, Nat.mul_comm _ _⟩
  have hv1 : g * 64 < 2048 := by omega
  have hd2 : (64 : Nat) ∣ r * 2048 + g * 64 := ⟨r * 32 + g, by ring⟩
  have hv2 : b * 2 < 64 := by omega
  have hd3 : (2 : Nat) ∣ r * 2048 + g * 64 + b * 2 :=
    ⟨r * 1024 + g * 32 + b, by ring⟩
  rw [or_eq_add_lit 11 2048 (by norm_num) hd1 hv1]
  rw [or_eq_add_lit 6 64 (by norm_num) hd2 hv2]
  rw [or_eq_add_lit 1 2 (by norm_num) hd3 ha]

theorem pack565_eq {r g b : Nat} (hr : r < 32) (hg : g < 64) (hb : b < 32) :
    (r <<< 11) ||| (g <<< 5) ||| b = r * 2048 + g * 32 + b := by
  rw [Nat.shiftLeft_eq, Nat.shiftLeft_eq]
  norm_num
  have hd1 : (2048 : Nat) ∣ r * 2048 := ⟨r, Nat.mul_comm _ _⟩
  have hv1 : g * 32 < 2048 := by omega
  have hd2 : (32 : Nat) ∣ r * 2048 + g * 32 := ⟨r * 64 + g, by ring⟩
  rw [or_eq_add_lit 11 2048 (by norm_num) hd1 hv1]
  rw [or_eq_add_lit 5 32 (by norm_num) hd2 hb]

theorem pack4444_eq {r g b a : Nat} (hr : r < 16) (hg : g < 16) (hb : b < 16)
    (ha : a < 16) :
    (r <<< 12) ||| (g <<< 8) ||| (b <<< 4) ||| a =
      r * 4096 + g * 256 + b * 16 + a := by
  rw [Nat.shiftLeft_eq, Nat.shiftLeft_eq, Nat.shiftLeft_eq]
  norm_num
  have hd1 : (4096 : Nat) ∣ r * 4096 := ⟨r, Nat.mul_comm _ _⟩
  have hv1 : g * 256 < 4096 := by omega
  have hd2 : (256 : Nat) ∣ r * 4096 + g * 256 := ⟨r * 16 + g, by ring⟩
  have hv2 : b * 16 < 256 := by omega
  have hd3 : (16 : Nat) ∣ r * 4096 + g * 256 + b * 16 :=
    ⟨r * 256 + g * 16 + b, by ring⟩
  rw [or_eq_add_lit 12 4096 (by norm_num) hd1 hv1]
  rw [or_eq_add_lit 8 256 (by norm_num) hd2 hv2]
  rw [or_eq_add_lit 4 16 (by norm_num) hd3 ha]

/-! ## Per-format compatibility of encode bytes and decode conversion -/

theorem conv8888_compat (p : Pixel) :
    rgba8888Conv (fun i => [p.a, p.b, p.g, p.r].getD i 0) =
      (p.r, p.g, p.b, p.a) := rfl

theorem conv888_compat (p : Pixel) :
    rgb888Conv (fun i => [p.b, p.g, p.r].getD i 0) =
      ((post888 p).r, (post888 p).g, (post888 p).b, (post888 p).a) := rfl

theorem shr3_lt {v : Nat} (hv : v < 256) : v >>> 3 < 32 := by
  have h : v >>> 3 = v / 8 := by rw [Nat.shiftRight_eq_div_pow]
  omega

theorem shr2_lt {v : Nat} (hv : v < 256) : v >>> 2 < 64 := by
  have h : v >>> 2 = v / 4 := by rw [Nat.shiftRight_eq_div_pow]
  omega

theorem shr4_lt {v : Nat} (hv : v < 256) : v >>> 4 < 16 := by
  have h : v >>> 4 = v / 16 := by rw [Nat.shiftRight_eq_div_pow]
  omega

theorem conv5551_compat (p : Pixel) (hp : PixelBytes p) :
    rgba5551Conv (fun i =>
      [(((p.r >>> 3) <<< 11) ||| ((p.g >>> 3) <<< 6) ||| ((p.b >>> 3) <<< 1) |||
          (if 127 < p.a then 1 else 0)) &&& 0xFF,
        (((p.r >>> 3) <<< 11) ||| ((p.g >>> 3) <<< 6) ||| ((p.b >>> 3) <<< 1) |||
          (if 127 < p.a then 1 else 0)) >>> 8].getD i 0) =
      ((post5551 p).r, (post5551 p).g, (post5551 p).b, (post5551 p).a) := by
  obtain ⟨hr, hg, hb, ha⟩ := hp
  have hr3 := shr3_lt hr
  have hg3 := shr3_lt hg
  have hb3 := shr3_lt hb
  have haa : (if 127 < p.a then 1 else 0) < 2 := by split <;> omega
  rw [conv5551_eval, pack5551_eq hr3 hg3 hb3 haa]
  have e1 : ((p.r >>> 3) * 2048 + (p.g >>> 3) * 64 + (p.b >>> 3) * 2 +
      (if 127 < p.a then 1 else 0)) / 2048 % 32 = p.r >>> 3 := by omega
  have e2 : ((p.r >>> 3) * 2048 + (p.g >>> 3) * 64 + (p.b >>> 3) * 2 +
      (if 127 < p.a then 1 else 0)) / 64 % 32 = p.g >>> 3 := by omega
  have e3 : ((p.r >>> 3) * 2048 + (p.g >>> 3) * 64 + (p.b >>> 3) * 2 +
      (if 127 < p.a then 1 else 0)) / 2 % 32 = p.b >>> 3 := by omega
  have e4 : ((p.r >>> 3) * 2048 + (p.g >>> 3) * 64 + (p.b >>> 3) * 2 +
      (if 127 < p.a then 1 else 0)) % 2 = (if 127 < p.a then 1 else 0) := by
    omega
  rw [e1, e2, e3, e4]
  rfl

theorem conv565_compat (p : Pixel) (hp : PixelBytes p) :
    rgb565Conv (fun i =>
      [(((p.r >>> 3) <<< 11) ||| ((p.g >>> 2) <<< 5) ||| (p.b >>> 3)) &&& 0xFF,
        (((p.r >>> 3) <<< 11) ||| ((p.g >>> 2) <<< 5) |||
          (p.b >>> 3)) >>> 8].getD i 0) =
      ((post565 p).r, (post565 p).g, (post565 p).b, (post565 p).a) := by
  obtain ⟨hr, hg, hb, ha⟩ := hp
  have hr3 := shr3_lt hr
  have hg2 := shr2_lt hg
  have hb3 := shr3_lt hb
  rw [conv565_eval, pack565_eq hr3 hg2 hb3]
  have e1 : ((p.r >>> 3) * 2048 + (p.g >>> 2) * 32 + (p.b >>> 3)) / 2048 %
      32 = p.r >>> 3 := by omega
  have e2 : ((p.r >>> 3) * 2048 + (p.g >>> 2) * 32 + (p.b >>> 3)) / 32 %
      64 = p.g >>> 2 := by omega
  have e3 : ((p.r >>> 3) * 2048 + (p.g >>> 2) * 32 + (p.b >>> 3)) % 32 =
      p.b >>> 3 := by omega
  rw [e1, e2, e3]
  rfl

theorem conv4444_compat (p : Pixel) (hp : PixelBytes p) :
    rgba4444Conv (fun i =>
      [(((p.r >>> 4) <<< 12) ||| ((p.g >>> 4) <<< 8) ||| ((p.b >>> 4) <<< 4) |||
          (p.a >>> 4)) &&& 0xFF,
        (((p.r >>> 4) <<< 12) ||| ((p.g >>> 4) <<< 8) ||| ((p.b >>> 4) <<< 4) |||
          (p.a >>> 4)) >>> 8].getD i 0) =
      ((post4444 p).r, (post4444 p).g, (post4444 p).b, (post4444 p).a) := by
  obtain ⟨hr, hg, hb, ha⟩ := hp
  have hr4 := shr4_lt hr
  have hg4 := shr4_lt hg
  have hb4 := shr4_lt hb
  have ha4 := shr4_lt ha
  rw [conv4444_eval, pack4444_eq hr4 hg4 hb4 ha4]
  have e1 : ((p.r >>> 4) * 4096 + (p.g >>> 4) * 256 + (p.b >>> 4) * 16 +
      (p.a >>> 4)) / 4096 % 16 = p.r >>> 4 := by omega
  have e2 : ((p.r >>> 4) * 4096 + (p.g >>> 4) * 256 + (p.b >>> 4) * 16 +
      (p.a >>> 4)) / 256 % 16 = p.g >>> 4 := by omega
  have e3 : ((p.r >>> 4) * 4096 + (p.g >>> 4) * 256 + (p.b >>> 4) * 16 +
      (p.a >>> 4)) / 16 % 16 = p.b >>> 4 := by omega
  have e4 : ((p.r >>> 4) * 4096 + (p.g >>> 4) * 256 + (p.b >>> 4) * 16 +
      (p.a >>> 4)) % 16 = p.a >>> 4 := by omega
  rw [e1, e2, e3, e4]
  rfl

/-! ## The decode conversions look only at their format's bytes -/

theorem rgba8888Conv_dep (d1 d2 : Nat → Nat)
    (hd : ∀ i, i < 4 → d1 i = d2 i) : rgba8888Conv d1 = rgba8888Conv d2 := by
  simp only [rgba8888Conv]
  rw [hd 0 (by omega), hd 1 (by omega), hd 2 (by omega), hd 3 (by omega)]

theorem rgb888Conv_dep (d1 d2 : Nat → Nat)
    (hd : ∀ i, i < 3 → d1 i = d2 i) : rgb888Conv d1 = rgb888Conv d2 := by
  simp only [rgb888Conv]
  rw [hd 0 (by omega), hd 1 (by omega), hd 2 (by omega)]

theorem rgba5551Conv_dep (d1 d2 : Nat → Nat)
    (hd : ∀ i, i < 2 → d1 i = d2 i) : rgba5551Conv d1 = rgba5551Conv d2 := by
  simp only [rgba5551Conv]
  rw [hd 0 (by omega), hd 1 (by omega)]

theorem rgb565Conv_dep (d1 d2 : Nat → Nat)
    (hd : ∀ i, i < 2 → d1 i = d2 i) : rgb565Conv d1 = rgb565Conv d2 := by
  simp only [rgb565Conv]
  rw [hd 0 (by omega), hd 1 (by omega)]

theorem rgba4444Conv_dep (d1 d2 : Nat → Nat)
    (hd : ∀ i, i < 2 → d1 i = d2 i) : rgba4444Conv d1 = rgba4444Conv d2 := by
  simp only [rgba4444Conv]
  rw [hd 0 (by omega), hd 1 (by omega)]

/-! ## Quantization error bounds of the expansion rules -/

set_option maxRecDepth 4000 in
theorem expand5_close : ∀ v : Fin 256,
    Nat.dist v.val (expand5 (v.val >>> 3)) ≤ 7 := by decide

set_option maxRecDepth 4000 in
theorem expand6_close : ∀ v : Fin 256,
    Nat.dist v.val (expand6 (v.val >>> 2)) ≤ 3 := by decide

set_option maxRecDepth 4000 in
theorem expand4_close : ∀ v : Fin 256,
    Nat.dist v.val (expand4 (v.val >>> 4)) ≤ 15 := by decide

set_option maxRecDepth 4000 in
theorem alpha1_close : ∀ v : Fin 256,
    Nat.dist v.val ((if 127 < v.val then 1 else 0) * 0xFF) ≤ 127 := by decide

/-! ## Per-format round trips assembled through decode_texture -/

/-- Expected packed bytes per pixel of each format with a decode path. -/
def decodeBpp : TextureFormat → Nat
  | .RGBA8888 => 4
  | .RGB888 => 3
  | .RGBA5551 => 2
  | .RGB565 => 2
  | .RGBA4444 => 2
  | _ => 0

theorem decode_texture_eq_of (data : List Nat) (w h : Nat)
    (fmt : TextureFormat) (res target : List Nat)
    (hraw : decodeRaw data w h fmt = some res)
    (hlen : res.length = w * h * 4)
    (hflip : flip_vertical res w h = target) :
    decode_texture data w h fmt = some target := by
  rw [decode_texture, hraw, Option.some_bind]
  rw [if_pos (by rw [hlen]; ring)]
  rw [if_pos (by rw [flip_vertical_length, hlen])]
  rw [hflip]

theorem roundtrip_rgba8888 (img : Image) {w h : Nat} (h8w : 8 ∣ w)
    (h8h : 8 ∣ h) (hw : 0 < w) (hh : 0 < h) (hbytes : ImageBytes img) :
    ∃ res, decode_rgba8888 (encode_rgba8888 img w h) w h = some res ∧
      res.length = w * h * 4 ∧
      flip_vertical res w h = rasterOf img w h := by
  exact walkRoundtrip (fun p => [p.a, p.b, p.g, p.r]) rgba8888Conv (32 / 8)
    (fun p => p) h8w h8h hw hh hbytes (by norm_num) (fun p => rfl)
    rgba8888Conv_dep (fun p _ => conv8888_compat p)

theorem roundtrip_rgb888 (img : Image) {w h : Nat} (h8w : 8 ∣ w)
    (h8h : 8 ∣ h) (hw : 0 < w) (hh : 0 < h) (hbytes : ImageBytes img) :
    ∃ res, decode_rgb888 (encode_rgb888 img w h) w h = some res ∧
      res.length = w * h * 4 ∧
      flip_vertical res w h = rasterOf (fun x y => post888 (img x y)) w h := by
  exact walkRoundtrip (fun p => [p.b, p.g, p.r]) rgb888Conv (24 / 8)
    post888 h8w h8h hw hh hbytes (by norm_num) (fun p => rfl)
    rgb888Conv_dep (fun p _ => conv888_compat p)

theorem roundtrip_rgba5551 (img : Image) {w h : Nat} (h8w : 8 ∣ w)
    (h8h : 8 ∣ h) (hw : 0 < w) (hh : 0 < h) (hbytes : ImageBytes img) :
    ∃ res, decode_rgba5551 (encode_rgba5551 img w h) w h = some res ∧
      res.length = w * h * 4 ∧
      flip_vertical res w h = rasterOf (fun x y => post5551 (img x y)) w h := by
  exact walkRoundtrip (fun p =>
      let r := p.r >>> 3
      let g := p.g >>> 3
      let b := p.b >>> 3
      let a := if 127 < p.a then 1 else 0
      let value := (r <<< 11) ||| (g <<< 6) ||| (b <<< 1) ||| a
      [value &&& 0xFF, value >>> 8]) rgba5551Conv (16 / 8)
    post5551 h8w h8h hw hh hbytes (by norm_num) (fun p => rfl)
    rgba5551Conv_dep (fun p hp => conv5551_compat p hp)

theorem roundtrip_rgb565 (img : Image) {w h : Nat} (h8w : 8 ∣ w)
    (h8h : 8 ∣ h) (hw : 0 < w) (hh : 0 < h) (hbytes : ImageBytes img) :
    ∃ res, decode_rgb565 (encode_rgb565 img w h) w h = some res ∧
      res.length = w * h * 4 ∧
      flip_vertical res w h = rasterOf (fun x y => post565 (img x y)) w h := by
  exact walkRoundtrip (fun p =>
      let r := p.r >>> 3
      let g := p.g >>> 2
      let b := p.b >>> 3
      let value := (r <<< 11) ||| (g <<< 5) ||| b
      [value &&& 0xFF, value >>> 8]) rgb565Conv (16 / 8)
    post565 h8w h8h hw hh hbytes (by norm_num) (fun p => rfl)
    rgb565Conv_dep (fun p hp => conv565_compat p hp)

theorem roundtrip_rgba4444 (img : Image) {w h : Nat} (h8w : 8 ∣ w)
    (h8h : 8 ∣ h) (hw : 0 < w) (hh : 0 < h) (hbytes : ImageBytes img) :
    ∃ res, decode_rgba4444 (encode_rgba4444 img w h) w h = some res ∧
      res.length = w * h * 4 ∧
      flip_vertical res w h = rasterOf (fun x y => post4444 (img x y)) w h := by
  exact walkRoundtrip (fun p =>
      let r := p.r >>> 4
      let g := p.g >>> 4
      let b := p.b >>> 4
      let a := p.a >>> 4
      let value := (r <<< 12) ||| (g <<< 8) ||| (b <<< 4) ||| a
      [value &&& 0xFF, value >>> 8]) rgba4444Conv (16 / 8)
    post4444 h8w h8h hw hh hbytes (by norm_num) (fun p => rfl)
    rgba4444Conv_dep (fun p hp => conv4444_compat p hp)

/-! ## Lengths of the 4-bit encoders -/

theorem foldl_pair_fst_length {α : Type}
    (g : List Nat × Nat → α → List Nat × Nat)
    (hg : ∀ st a, ((g st a).1).length = st.1.length) (l : List α) :
    ∀ st, (((l.foldl g st).1)).length = st.1.length := by
  induction l with
  | nil => intro st; rfl
  | cons a l ih => intro st; rw [List.foldl_cons, ih, hg]

theorem encode_l4_length (img : Image) (w h : Nat) :
    (encode_l4 img w h).length = w * h := by
  unfold encode_l4
  refine (foldl_pair_fst_length _ (fun st e => ?_) _ _).trans (by simp)
  dsimp only
  split
  · rfl
  · simp [List.length_set]

theorem encode_a4_length (img : Image) (w h : Nat) :
    (encode_a4 img w h).length = w * h := by
  unfold encode_a4
  refine (foldl_pair_fst_length _ (fun st e => ?_) _ _).trans (by simp)
  dsimp only
  split
  · rfl
  · simp [List.length_set]

/-! ## The ETC1A4 alpha mask -/

theorem foldl_pair_snd {α : Type}
    (g : List Nat × Nat → α → List Nat × Nat) (f2 : Nat → α → Nat)
    (hg : ∀ st a, (g st a).2 = f2 st.2 a) (l : List α) :
    ∀ st, (l.foldl g st).2 = l.foldl f2 st.2 := by
  induction l with
  | nil => intro st; rfl
  | cons a l ih => intro st; rw [List.foldl_cons, List.foldl_cons, ih, hg]

/-- Whatever the sub-block position and image size, a sub-block whose pixels
all carry alpha `0xF0` (with off-canvas pixels synthesized at alpha `255`)
builds the all-ones 64-bit alpha mask. -/
theorem subBlock_alpha_full (img : Image) (w h tx ty t : Nat) (ht : t < 4)
    (halpha : ∀ x y, (img x y).a = 0xF0) :
    (subBlockState img w h true tx ty t).2 = 0xFFFFFFFFFFFFFFFF := by
  unfold subBlockState
  rw [foldl_pair_snd _
    (fun acc i => acc ||| (15 <<< ((((XT.getD t 0 + i % 4) &&& 3) * 4 +
      ((YT.getD t 0 + i / 4) &&& 3)) <<< 2)))
    (fun st i => by
      dsimp only
      rw [if_pos (rfl : (true : Bool) = true)]
      by_cases hin : tx + (XT.getD t 0 + i % 4) < w ∧
          ty + (YT.getD t 0 + i / 4) < h
      · rw [if_pos hin]
        dsimp only
        rw [halpha]
        rfl
      · rw [if_neg hin]
        rfl) _ _]
  have ht4 : t = 0 ∨ t = 1 ∨ t = 2 ∨ t = 3 := by omega
  rcases ht4 with rfl | rfl | rfl | rfl <;> decide

/-! ## The 64-byte RGBA sub-block buffer -/

theorem foldl_pair_fst {α : Type}
    (g : List Nat × Nat → α → List Nat × Nat) (f1 : List Nat → α → List Nat)
    (hg : ∀ st a, (g st a).1 = f1 st.1 a) (l : List α) :
    ∀ st, (l.foldl g st).1 = l.foldl f1 st.1 := by
  induction l with
  | nil => intro st; rfl
  | cons a l ih =>
    intro st
    rw [List.foldl_cons, List.foldl_cons, ih, hg]

/-- RGBA of sub-block pixel `i` as `encode_etc1` sources it: the image pixel
when its absolute coordinates are in bounds, opaque black otherwise. -/
def subPixel (img : Image) (w h tx ty t i : Nat) : Nat × Nat × Nat × Nat :=
  if tx + (XT.getD t 0 + i % 4) < w ∧ ty + (YT.getD t 0 + i / 4) < h then
    ((img (tx + (XT.getD t 0 + i % 4)) (ty + (YT.getD t 0 + i / 4))).r,
      (img (tx + (XT.getD t 0 + i % 4)) (ty + (YT.getD t 0 + i / 4))).g,
      (img (tx + (XT.getD t 0 + i % 4)) (ty + (YT.getD t 0 + i / 4))).b,
      (img (tx + (XT.getD t 0 + i % 4)) (ty + (YT.getD t 0 + i / 4))).a)
  else (0, 0, 0, 255)

theorem blockFold_spec (img : Image) (w h tx ty t : Nat) (ha : Bool) :
    ∀ n, n ≤ 16 →
      (((List.range n).foldl (fun b i =>
          (((b.set (i * 4) (subPixel img w h tx ty t i).1).set (i * 4 + 1)
            (subPixel img w h tx ty t i).2.1).set (i * 4 + 2)
            (subPixel img w h tx ty t i).2.2.1).set (i * 4 + 3)
            (subPixel img w h tx ty t i).2.2.2)
        (List.replicate 64 0)).length = 64) ∧
      (∀ p, 4 * n ≤ p →
        ((List.range n).foldl (fun b i =>
          (((b.set (i * 4) (subPixel img w h tx ty t i).1).set (i * 4 + 1)
            (subPixel img w h tx ty t i).2.1).set (i * 4 + 2)
            (subPixel img w h tx ty t i).2.2.1).set (i * 4 + 3)
            (subPixel img w h tx ty t i).2.2.2)
          (List.replicate 64 0))[p]? = (List.replicate 64 0)[p]?) ∧
      (∀ i, i < n →
        ((List.range n).foldl (fun b i =>
          (((b.set (i * 4) (subPixel img w h tx ty t i).1).set (i * 4 + 1)
            (subPixel img w h tx ty t i).2.1).set (i * 4 + 2)
            (subPixel img w h tx ty t i).2.2.1).set (i * 4 + 3)
            (subPixel img w h tx ty t i).2.2.2)
          (List.replicate 64 0))[i * 4]? =
            some (subPixel img w h tx ty t i).1 ∧
        ((List.range n).foldl (fun b i =>
          (((b.set (i * 4) (subPixel img w h tx ty t i).1).set (i * 4 + 1)
            (subPixel img w h tx ty t i).2.1).set (i * 4 + 2)
            (subPixel img w h tx ty t i).2.2.1).set (i * 4 + 3)
            (subPixel img w h tx ty t i).2.2.2)
          (List.replicate 64 0))[i * 4 + 1]? =
            some (subPixel img w h tx ty t i).2.1 ∧
        ((List.range n).foldl (fun b i =>
          (((b.set (i * 4) (subPixel img w h tx ty t i).1).set (i * 4 + 1)
            (subPixel img w h tx ty t i).2.1).set (i * 4 + 2)
            (subPixel img w h tx ty t i).2.2.1).set (i * 4 + 3)
            (subPixel img w h tx ty t i).2.2.2)
          (List.replicate 64 0))[i * 4 + 2]? =
            some (subPixel img w h tx ty t i).2.2.1 ∧
        ((List.range n).foldl (fun b i =>
          (((b.set (i * 4) (subPixel img w h tx ty t i).1).set (i * 4 + 1)
            (subPixel img w h tx ty t i).2.1).set (i * 4 + 2)
            (subPixel img w h tx ty t i).2.2.1).set (i * 4 + 3)
            (subPixel img w h tx ty t i).2.2.2)
          (List.replicate 64 0))[i * 4 + 3]? =
            some (subPixel img w h tx ty t i).2.2.2) := by
  intro n
  induction n with
  | zero =>
    intro _
    refine ⟨by simp, fun p _ => rfl, fun i hi => absurd hi (by omega)⟩
  | succ n ih =>
    intro hn
    obtain ⟨ihlen, ihout, ihwr⟩ := ih (by omega)
    rw [List.range_succ, List.foldl_append, List.foldl_cons, List.foldl_nil]
    have hn4 : n * 4 + 3 < 64 := by omega
    constructor
    · rw [List.length_set, List.length_set, List.length_set, List.length_set,
        ihlen]
    constructor
    · intro p hp
      rw [List.getElem?_set_ne (by omega), List.getElem?_set_ne (by omega),
        List.getElem?_set_ne (by omega), List.getElem?_set_ne (by omega)]
      exact ihout p (by omega)
    · intro i hi
      by_cases hin : i = n
      · subst hin
        refine ⟨?_, ?_, ?_, ?_⟩
        · rw [List.getElem?_set_ne (by omega), List.getElem?_set_ne (by omega),
            List.getElem?_set_ne (by omega)]
          exact List.getElem?_set_self (by rw [ihlen]; omega)
        · rw [List.getElem?_set_ne (by omega), List.getElem?_set_ne (by omega)]
          exact List.getElem?_set_self (by
            rw [List.length_set, ihlen]
            omega)
        · rw [List.getElem?_set_ne (by omega)]
          exact List.getElem?_set_self (by
            rw [List.length_set, List.length_set, ihlen]
            omega)
        · exact List.getElem?_set_self (by
            rw [List.length_set, List.length_set, List.length_set, ihlen]
            omega)
      · have hilt : i < n := by omega
        have hi4 : i * 4 + 3 < n * 4 := by omega
        obtain ⟨w0, w1, w2, w3⟩ := ihwr i hilt
        refine ⟨?_, ?_, ?_, ?_⟩
        · rw [List.getElem?_set_ne (by omega), List.getElem?_set_ne (by omega),
            List.getElem?_set_ne (by omega), List.getElem?_set_ne (by omega)]
          exact w0
        · rw [List.getElem?_set_ne (by omega), List.getElem?_set_ne (by omega),
            List.getElem?_set_ne (by omega), List.getElem?_set_ne (by omega)]
          exact w1
        · rw [List.getElem?_set_ne (by omega), List.getElem?_set_ne (by omega),
            List.getElem?_set_ne (by omega), List.getElem?_set_ne (by omega)]
          exact w2
        · rw [List.getElem?_set_ne (by omega), List.getElem?_set_ne (by omega),
            List.getElem?_set_ne (by omega), List.getElem?_set_ne (by omega)]
          exact w3

/-- The block component of `subBlockState` equals the plain fold of the
per-pixel writes. -/
theorem subBlockState_fst (img : Image) (w h : Nat) (ha : Bool)
    (tx ty t : Nat) :
    (subBlockState img w h ha tx ty t).1 =
      (List.range 16).foldl (fun b i =>
        (((b.set (i * 4) (subPixel img w h tx ty t i).1).set (i * 4 + 1)
          (subPixel img w h tx ty t i).2.1).set (i * 4 + 2)
          (subPixel img w h tx ty t i).2.2.1).set (i * 4 + 3)
          (subPixel img w h tx ty t i).2.2.2)
        (List.replicate 64 0) := by
  unfold subBlockState
  exact foldl_pair_fst _ _ (fun st i => rfl) _ _

/-! # Claim theorems -/

/-- Claim C1 (amended): for dimensions that are positive multiples of 8, the
encoded output length is `width * height * bytes_per_pixel` with 4 bytes for
RGBA8888, 3 for RGB888, 2 for RGBA5551, RGB565, RGBA4444, LA88 and HL8, and
1 for L8, A8 and LA44 — and also 1 (not 0.5) for the 4-bit formats L4 and
A4, whose output buffer is allocated at one byte per pixel with only the
first half carrying nibbles. -/
theorem C1_encoded_sizes (img : Image) (w h : Nat) (h8w : 8 ∣ w)
    (h8h : 8 ∣ h) (hw : 0 < w) (hh : 0 < h) :
    (encode_rgba8888 img w h).length = w * h * 4 ∧
    (encode_rgb888 img w h).length = w * h * 3 ∧
    (encode_rgba5551 img w h).length = w * h * 2 ∧
    (encode_rgb565 img w h).length = w * h * 2 ∧
    (encode_rgba4444 img w h).length = w * h * 2 ∧
    (encode_la88 img w h).length = w * h * 2 ∧
    (encode_hl8 img w h).length = w * h * 2 ∧
    (encode_l8 img w h).length = w * h * 1 ∧
    (encode_a8 img w h).length = w * h * 1 ∧
    (encode_la44 img w h).length = w * h * 1 ∧
    (encode_l4 img w h).length = w * h * 1 ∧
    (encode_a4 img w h).length = w * h * 1 := by
  refine ⟨?_, ?_, ?_, ?_, ?_, ?_, ?_, ?_, ?_, ?_, ?_, ?_⟩
  · rw [encode_rgba8888, encodeWalk_length 4 h8w h8h _ _ (fun p => by rfl)]
    ring
  · rw [encode_rgb888, encodeWalk_length 3 h8w h8h _ _ (fun p => by rfl)]
    ring
  · rw [encode_rgba5551, encodeWalk_length 2 h8w h8h _ _ (fun p => by rfl)]
    ring
  · rw [encode_rgb565, encodeWalk_length 2 h8w h8h _ _ (fun p => by rfl)]
    ring
  · rw [encode_rgba4444, encodeWalk_length 2 h8w h8h _ _ (fun p => by rfl)]
    ring
  · rw [encode_la88, encodeWalk_length 2 h8w h8h _ _ (fun p => by rfl)]
    ring
  · rw [encode_hl8, encodeWalk_length 2 h8w h8h _ _ (fun p => by rfl)]
    ring
  · rw [encode_l8, encodeWalk_length 1 h8w h8h _ _ (fun p => by rfl)]
    ring
  · rw [encode_a8, encodeWalk_length 1 h8w h8h _ _ (fun p => by rfl)]
    ring
  · rw [encode_la44, encodeWalk_length 1 h8w h8h _ _ (fun p => by rfl)]
    ring
  · rw [encode_l4_length]
    ring
  · rw [encode_a4_length]
    ring

/-- Claim C1, witness at an 8×8 constant image. -/
theorem C1_witness :
    (encode_rgba8888 (fun _ _ => ⟨1, 2, 3, 4⟩) 8 8).length = 8 * 8 * 4 ∧
    (encode_rgb888 (fun _ _ => ⟨1, 2, 3, 4⟩) 8 8).length = 8 * 8 * 3 ∧
    (encode_rgba5551 (fun _ _ => ⟨1, 2, 3, 4⟩) 8 8).length = 8 * 8 * 2 ∧
    (encode_rgb565 (fun _ _ => ⟨1, 2, 3, 4⟩) 8 8).length = 8 * 8 * 2 ∧
    (encode_rgba4444 (fun _ _ => ⟨1, 2, 3, 4⟩) 8 8).length = 8 * 8 * 2 ∧
    (encode_la88 (fun _ _ => ⟨1, 2, 3, 4⟩) 8 8).length = 8 * 8 * 2 ∧
    (encode_hl8 (fun _ _ => ⟨1, 2, 3, 4⟩) 8 8).length = 8 * 8 * 2 ∧
    (encode_l8 (fun _ _ => ⟨1, 2, 3, 4⟩) 8 8).length = 8 * 8 * 1 ∧
    (encode_a8 (fun _ _ => ⟨1, 2, 3, 4⟩) 8 8).length = 8 * 8 * 1 ∧
    (encode_la44 (fun _ _ => ⟨1, 2, 3, 4⟩) 8 8).length = 8 * 8 * 1 ∧
    (encode_l4 (fun _ _ => ⟨1, 2, 3, 4⟩) 8 8).length = 8 * 8 * 1 ∧
    (encode_a4 (fun _ _ => ⟨1, 2, 3, 4⟩) 8 8).length = 8 * 8 * 1 :=
  C1_encoded_sizes (fun _ _ => ⟨1, 2, 3, 4⟩) 8 8 (by norm_num) (by norm_num)
    (by norm_num) (by norm_num)

/-- Claim C1, counterexample to the stated 0.5 bytes per pixel for L4: an
8×8 image encodes to 64 bytes, not 8*8/2 = 32. -/
theorem C1_counterexample :
    (encode_l4 (fun _ _ => ⟨0, 0, 0, 0⟩) 8 8).length = 64 ∧
    (encode_l4 (fun _ _ => ⟨0, 0, 0, 0⟩) 8 8).length ≠ 8 * 8 / 2 := by
  have h := encode_l4_length (fun _ _ => ⟨0, 0, 0, 0⟩) 8 8
  rw [h]
  norm_num

set_option maxRecDepth 4000 in
/-- Claim C2: mapping the 64 swizzle table entries through
`px ↦ (px & 7, px >> 3)` hits every pair in `[0,8)×[0,8)` exactly once:
the map is surjective onto those pairs and injective. -/
theorem C2_swizzle_bijection :
    (∀ x, x < 8 → ∀ y, y < 8 → ∃ i : Fin 64,
      (SWIZZLE_LUT.getD i.val 0 &&& 7, SWIZZLE_LUT.getD i.val 0 >>> 3) =
        (x, y)) ∧
    Function.Injective (fun i : Fin 64 =>
      (SWIZZLE_LUT.getD i.val 0 &&& 7, SWIZZLE_LUT.getD i.val 0 >>> 3)) := by
  decide

/-- Claim C2, witness: slot of tile-local coordinate (3, 5). -/
theorem C2_witness : ∃ i : Fin 64,
    (SWIZZLE_LUT.getD i.val 0 &&& 7, SWIZZLE_LUT.getD i.val 0 >>> 3) =
      (3, 5) :=
  C2_swizzle_bijection.1 3 (by norm_num) 5 (by norm_num)

set_option maxRecDepth 8000 in
/-- Claim C5: an 8×8 solid-red image encodes as RGBA5551 to the same two
little-endian bytes for all 64 pixel slots, the value given by the bit
layout formula `(31 << 11) | (0 << 6) | (0 << 1) | 1 = 0xF801`, i.e. bytes
`[0x01, 0xF8]`. -/
theorem C5_solid_red_rgba5551 :
    encode_rgba5551 (fun _ _ => ⟨255, 0, 0, 255⟩) 8 8 =
      (List.replicate 64 [0x01, 0xF8]).flatten ∧
    (31 <<< 11) ||| (0 <<< 6) ||| (0 <<< 1) ||| 1 = 0xF801 := by
  constructor
  · decide
  · decide

/-- A constant image of a byte-valued pixel has byte-valued channels. -/
theorem constImageBytes (p : Pixel) (hp : PixelBytes p) :
    ImageBytes (fun _ _ => p) := fun _ _ => hp

/-- Claim C3 (amended): with dimensions that are positive multiples of 8 and
byte-valued channels, the decode of an RGBA8888 encode reproduces the
original raster exactly; the decode of an RGB888 encode reproduces the
RGB channels exactly but forces every alpha byte to 255. -/
theorem C3_roundtrip_exact (img : Image) (w h : Nat) (h8w : 8 ∣ w)
    (h8h : 8 ∣ h) (hw : 0 < w) (hh : 0 < h) (hbytes : ImageBytes img) :
    decode_texture (encode_rgba8888 img w h) w h TextureFormat.RGBA8888 =
      some (rasterOf img w h) ∧
    decode_texture (encode_rgb888 img w h) w h TextureFormat.RGB888 =
      some (rasterOf (fun x y => post888 (img x y)) w h) := by
  constructor
  · obtain ⟨res, hres, hlen, hflip⟩ :=
      roundtrip_rgba8888 img h8w h8h hw hh hbytes
    exact decode_texture_eq_of _ _ _ _ res _ hres hlen hflip
  · obtain ⟨res, hres, hlen, hflip⟩ :=
      roundtrip_rgb888 img h8w h8h hw hh hbytes
    exact decode_texture_eq_of _ _ _ _ res _ hres hlen hflip

/-- Claim C3, witness at an 8×8 constant image. -/
theorem C3_witness :
    decode_texture (encode_rgba8888 (fun _ _ => ⟨1, 2, 3, 4⟩) 8 8) 8 8
        TextureFormat.RGBA8888 =
      some (rasterOf (fun _ _ => ⟨1, 2, 3, 4⟩) 8 8) ∧
    decode_texture (encode_rgb888 (fun _ _ => ⟨1, 2, 3, 4⟩) 8 8) 8 8
        TextureFormat.RGB888 =
      some (rasterOf (fun x y =>
        post888 ((fun _ _ => (⟨1, 2, 3, 4⟩ : Pixel)) x y)) 8 8) :=
  C3_roundtrip_exact (fun _ _ => ⟨1, 2, 3, 4⟩) 8 8 (by norm_num) (by norm_num)
    (by norm_num) (by norm_num)
    (constImageBytes _ ⟨by norm_num, by norm_num, by norm_num, by norm_num⟩)

set_option maxRecDepth 8000 in
/-- Claim C3, counterexample to exactness for RGB888: a pixel with alpha 0
comes back with alpha 255, so the round trip is not the original image. -/
theorem C3_counterexample :
    decode_texture (encode_rgb888 (fun _ _ => ⟨10, 20, 30, 0⟩) 8 8) 8 8
        TextureFormat.RGB888 ≠
      some (rasterOf (fun _ _ => ⟨10, 20, 30, 0⟩) 8 8) := by
  obtain ⟨res, hres, hlen, hflip⟩ :=
    roundtrip_rgb888 (w := 8) (h := 8) (fun _ _ => ⟨10, 20, 30, 0⟩)
      (by norm_num) (by norm_num) (by norm_num) (by norm_num)
      (constImageBytes _ ⟨by norm_num, by norm_num, by norm_num, by norm_num⟩)
  have heq := decode_texture_eq_of _ 8 8 TextureFormat.RGB888 res _ hres
    hlen hflip
  rw [heq]
  intro hc
  exact absurd (Option.some.inj hc) (by decide)

/-- Claim C4 (amended): on dimensions that are positive multiples of 8, the
five formats RGBA8888, RGB888, RGBA5551, RGB565 and RGBA4444 decode
successfully from a buffer of the expected packed size; every other format,
including the remaining seven uncompressed formats, fails immediately. -/
theorem C4_decode_paths (data : List Nat) (w h : Nat) (h8w : 8 ∣ w)
    (h8h : 8 ∣ h) (hw : 0 < w) (hh : 0 < h) :
    (data.length = 4 * (w * h) →
      ∃ res, decode_texture data w h TextureFormat.RGBA8888 = some res) ∧
    (data.length = 3 * (w * h) →
      ∃ res, decode_texture data w h TextureFormat.RGB888 = some res) ∧
    (data.length = 2 * (w * h) →
      ∃ res, decode_texture data w h TextureFormat.RGBA5551 = some res) ∧
    (data.length = 2 * (w * h) →
      ∃ res, decode_texture data w h TextureFormat.RGB565 = some res) ∧
    (data.length = 2 * (w * h) →
      ∃ res, decode_texture data w h TextureFormat.RGBA4444 = some res) ∧
    (∀ fmt, fmt ∈ ([TextureFormat.LA88, TextureFormat.HL8, TextureFormat.L8,
        TextureFormat.A8, TextureFormat.LA44, TextureFormat.L4,
        TextureFormat.A4, TextureFormat.ETC1, TextureFormat.ETC1A4] :
          List TextureFormat) →
      decode_texture data w h fmt = none) := by
  refine ⟨?_, ?_, ?_, ?_, ?_, ?_⟩
  · intro hdata
    obtain ⟨res, hres, hlen⟩ := decode_format_ok rgba8888Conv (32 / 8) data
      h8w h8h (by norm_num) (by rw [hdata])
    exact ⟨_, decode_texture_eq_of _ _ _ _ res _ hres hlen rfl⟩
  · intro hdata
    obtain ⟨res, hres, hlen⟩ := decode_format_ok rgb888Conv (24 / 8) data
      h8w h8h (by norm_num) (by rw [hdata])
    exact ⟨_, decode_texture_eq_of _ _ _ _ res _ hres hlen rfl⟩
  · intro hdata
    obtain ⟨res, hres, hlen⟩ := decode_format_ok rgba5551Conv (16 / 8) data
      h8w h8h (by norm_num) (by rw [hdata])
    exact ⟨_, decode_texture_eq_of _ _ _ _ res _ hres hlen rfl⟩
  · intro hdata
    obtain ⟨res, hres, hlen⟩ := decode_format_ok rgb565Conv (16 / 8) data
      h8w h8h (by norm_num) (by rw [hdata])
    exact ⟨_, decode_texture_eq_of _ _ _ _ res _ hres hlen rfl⟩
  · intro hdata
    obtain ⟨res, hres, hlen⟩ := decode_format_ok rgba4444Conv (16 / 8) data
      h8w h8h (by norm_num) (by rw [hdata])
    exact ⟨_, decode_texture_eq_of _ _ _ _ res _ hres hlen rfl⟩
  · intro fmt hfmt
    fin_cases hfmt <;> rfl

/-- Claim C4, witness: an RGBA8888 decode of a correctly sized zero buffer
succeeds. -/
theorem C4_witness :
    ∃ res, decode_texture (List.replicate (4 * (8 * 8)) 0) 8 8
      TextureFormat.RGBA8888 = some res :=
  (C4_decode_paths (List.replicate (4 * (8 * 8)) 0) 8 8 (by norm_num)
    (by norm_num) (by norm_num) (by norm_num)).1
    (by rw [List.length_replicate])

/-- Claim C4, counterexample: L8 is an uncompressed format, its buffer here
has exactly the expected packed size 8*8 bytes, yet decoding fails because
no decode path is implemented. -/
theorem C4_counterexample :
    decode_texture (List.replicate (8 * 8) 0) 8 8 TextureFormat.L8 =
      none := rfl

/-- Claim C7 (amended): for the three reduced-bit-depth formats that have a
decode path — RGBA5551, RGB565, RGBA4444 — the round trip produces exactly
the per-pixel bit-expansion image, and each retained channel lies within
the quantization step of its bit depth (5-bit: 7, 6-bit: 3, 4-bit: 15, the
1-bit RGBA5551 alpha: 127); the RGB565 round trip forces alpha to 255. -/
theorem C7_quantization (img : Image) (w h : Nat) (h8w : 8 ∣ w)
    (h8h : 8 ∣ h) (hw : 0 < w) (hh : 0 < h) (hbytes : ImageBytes img) :
    (decode_texture (encode_rgba5551 img w h) w h TextureFormat.RGBA5551 =
        some (rasterOf (fun x y => post5551 (img x y)) w h) ∧
      ∀ x y, Nat.dist (img x y).r (post5551 (img x y)).r ≤ 7 ∧
        Nat.dist (img x y).g (post5551 (img x y)).g ≤ 7 ∧
        Nat.dist (img x y).b (post5551 (img x y)).b ≤ 7 ∧
        Nat.dist (img x y).a (post5551 (img x y)).a ≤ 127) ∧
    (decode_texture (encode_rgb565 img w h) w h TextureFormat.RGB565 =
        some (rasterOf (fun x y => post565 (img x y)) w h) ∧
      ∀ x y, Nat.dist (img x y).r (post565 (img x y)).r ≤ 7 ∧
        Nat.dist (img x y).g (post565 (img x y)).g ≤ 3 ∧
        Nat.dist (img x y).b (post565 (img x y)).b ≤ 7 ∧
        (post565 (img x y)).a = 0xFF) ∧
    (decode_texture (encode_rgba4444 img w h) w h TextureFormat.RGBA4444 =
        some (rasterOf (fun x y => post4444 (img x y)) w h) ∧
      ∀ x y, Nat.dist (img x y).r (post4444 (img x y)).r ≤ 15 ∧
        Nat.dist (img x y).g (post4444 (img x y)).g ≤ 15 ∧
        Nat.dist (img x y).b (post4444 (img x y)).b ≤ 15 ∧
        Nat.dist (img x y).a (post4444 (img x y)).a ≤ 15) := by
  refine ⟨⟨?_, ?_⟩, ⟨?_, ?_⟩, ⟨?_, ?_⟩⟩
  · obtain ⟨res, hres, hlen, hflip⟩ :=
      roundtrip_rgba5551 img h8w h8h hw hh hbytes
    exact decode_texture_eq_of _ _ _ _ res _ hres hlen hflip
  · intro x y
    exact ⟨expand5_close ⟨(img x y).r, (hbytes x y).1⟩,
      expand5_close ⟨(img x y).g, (hbytes x y).2.1⟩,
      expand5_close ⟨(img x y).b, (hbytes x y).2.2.1⟩,
      alpha1_close ⟨(img x y).a, (hbytes x y).2.2.2⟩⟩
  · obtain ⟨res, hres, hlen, hflip⟩ :=
      roundtrip_rgb565 img h8w h8h hw hh hbytes
    exact decode_texture_eq_of _ _ _ _ res _ hres hlen hflip
  · intro x y
    exact ⟨expand5_close ⟨(img x y).r, (hbytes x y).1⟩,
      expand6_close ⟨(img x y).g, (hbytes x y).2.1⟩,
      expand5_close ⟨(img x y).b, (hbytes x y).2.2.1⟩, rfl⟩
  · obtain ⟨res, hres, hlen, hflip⟩ :=
      roundtrip_rgba4444 img h8w h8h hw hh hbytes
    exact decode_texture_eq_of _ _ _ _ res _ hres hlen hflip
  · intro x y
    exact ⟨expand4_close ⟨(img x y).r, (hbytes x y).1⟩,
      expand4_close ⟨(img x y).g, (hbytes x y).2.1⟩,
      expand4_close ⟨(img x y).b, (hbytes x y).2.2.1⟩,
      expand4_close ⟨(img x y).a, (hbytes x y).2.2.2⟩⟩

/-- Claim C7, witness at an 8×8 constant image. -/
theorem C7_witness :
    decode_texture (encode_rgba5551 (fun _ _ => ⟨200, 100, 50, 25⟩) 8 8) 8 8
        TextureFormat.RGBA5551 =
      some (rasterOf (fun x y =>
        post5551 ((fun _ _ => (⟨200, 100, 50, 25⟩ : Pixel)) x y)) 8 8) :=
  (C7_quantization (fun _ _ => ⟨200, 100, 50, 25⟩) 8 8 (by norm_num)
    (by norm_num) (by norm_num) (by norm_num)
    (constImageBytes _
      ⟨by norm_num, by norm_num, by norm_num, by norm_num⟩)).1.1

/-- Claim C7, counterexample: LA44 is listed by the claim, but decoding an
LA44 texture is unimplemented, so the round trip produces no image at all. -/
theorem C7_counterexample :
    decode_texture (encode_la44 (fun _ _ => ⟨1, 2, 3, 4⟩) 8 8) 8 8
      TextureFormat.LA44 = none := rfl

/-- A short buffer makes the per-format decode loop fail. -/
theorem decode_loop_none (conv : ConvFn) (bpp : Nat) {w h : Nat}
    (data : List Nat) (h8w : 8 ∣ w) (h8h : 8 ∣ h) (hw : 0 < w) (hh : 0 < h)
    (hshort : data.length < bpp * (w * h)) :
    decodeLoopG data bpp (outIdx w h) conv (traversal w h) 0
      (List.replicate (w * h * 4) 0) = none := by
  cases hck : decodeLoopG data bpp (outIdx w h) conv (traversal w h) 0
      (List.replicate (w * h * 4) 0) with
  | none => rfl
  | some res =>
    exfalso
    have hle := decodeLoopG_some_le data bpp (outIdx w h) conv _ _ _ _ hck
      (by
        intro hnil
        have hTlen := traversal_length_mul8 h8w h8h
        rw [hnil] at hTlen
        have hpos := Nat.mul_pos hw hh
        simp at hTlen
        omega)
    rw [traversal_length_mul8 h8w h8h] at hle
    omega

/-- Claim C9: for every format with an implemented decode path, a buffer
shorter than the expected packed size makes `decode_texture` fail
deterministically (the model's reads are bounds-checked, so no byte past
the end is ever accessed). -/
theorem C9_short_buffer_fails (data : List Nat) (w h : Nat) (h8w : 8 ∣ w)
    (h8h : 8 ∣ h) (hw : 0 < w) (hh : 0 < h) (fmt : TextureFormat)
    (hfmt : fmt ∈ ([TextureFormat.RGBA8888, TextureFormat.RGB888,
      TextureFormat.RGBA5551, TextureFormat.RGB565, TextureFormat.RGBA4444] :
        List TextureFormat))
    (hshort : data.length < decodeBpp fmt * (w * h)) :
    decode_texture data w h fmt = none := by
  fin_cases hfmt
  · have hnone : decodeRaw data w h TextureFormat.RGBA8888 = none :=
      decode_loop_none rgba8888Conv (32 / 8) data h8w h8h hw hh
        (by simp only [decodeBpp] at hshort; omega)
    unfold decode_texture
    rw [hnone]
    rfl
  · have hnone : decodeRaw data w h TextureFormat.RGB888 = none :=
      decode_loop_none rgb888Conv (24 / 8) data h8w h8h hw hh
        (by simp only [decodeBpp] at hshort; omega)
    unfold decode_texture
    rw [hnone]
    rfl
  · have hnone : decodeRaw data w h TextureFormat.RGBA5551 = none :=
      decode_loop_none rgba5551Conv (16 / 8) data h8w h8h hw hh
        (by simp only [decodeBpp] at hshort; omega)
    unfold decode_texture
    rw [hnone]
    rfl
  · have hnone : decodeRaw data w h TextureFormat.RGB565 = none :=
      decode_loop_none rgb565Conv (16 / 8) data h8w h8h hw hh
        (by simp only [decodeBpp] at hshort; omega)
    unfold decode_texture
    rw [hnone]
    rfl
  · have hnone : decodeRaw data w h TextureFormat.RGBA4444 = none :=
      decode_loop_none rgba4444Conv (16 / 8) data h8w h8h hw hh
        (by simp only [decodeBpp] at hshort; omega)
    unfold decode_texture
    rw [hnone]
    rfl

/-- Claim C9, witness: a 10-byte buffer is too short for an 8×8 RGBA8888
texture and decoding fails. -/
theorem C9_witness :
    decode_texture (List.replicate 10 0) 8 8 TextureFormat.RGBA8888 =
      none :=
  C9_short_buffer_fails (List.replicate 10 0) 8 8 (by norm_num) (by norm_num)
    (by norm_num) (by norm_num) TextureFormat.RGBA8888 (by decide)
    (by rw [List.length_replicate]; norm_num [decodeBpp])

/-- Claim C10: for every implemented format and a correctly sized input with
dimensions that are positive multiples of 8, flipping the decoder's output
(which wrote rows at `height-1-(ty+y)`) equals the plain walker that writes
rows top-first with no flip: the two inversions cancel. -/
theorem C10_inversions_cancel (data : List Nat) (w h : Nat) (h8w : 8 ∣ w)
    (h8h : 8 ∣ h) (hw : 0 < w) (hh : 0 < h) (fmt : TextureFormat)
    (hfmt : fmt ∈ ([TextureFormat.RGBA8888, TextureFormat.RGB888,
      TextureFormat.RGBA5551, TextureFormat.RGB565, TextureFormat.RGBA4444] :
        List TextureFormat))
    (hdata : data.length = decodeBpp fmt * (w * h)) :
    (decodeRaw data w h fmt).map (fun d => flip_vertical d w h) =
      decodeNoFlip data w h fmt := by
  fin_cases hfmt
  · exact noflipEquiv rgba8888Conv (32 / 8) data h8w h8h hw hh (by norm_num)
      (by simp only [decodeBpp] at hdata; omega)
  · exact noflipEquiv rgb888Conv (24 / 8) data h8w h8h hw hh (by norm_num)
      (by simp only [decodeBpp] at hdata; omega)
  · exact noflipEquiv rgba5551Conv (16 / 8) data h8w h8h hw hh (by norm_num)
      (by simp only [decodeBpp] at hdata; omega)
  · exact noflipEquiv rgb565Conv (16 / 8) data h8w h8h hw hh (by norm_num)
      (by simp only [decodeBpp] at hdata; omega)
  · exact noflipEquiv rgba4444Conv (16 / 8) data h8w h8h hw hh (by norm_num)
      (by simp only [decodeBpp] at hdata; omega)

/-- Claim C10, witness at a concrete correctly sized buffer. -/
theorem C10_witness :
    (decodeRaw (List.replicate 256 0) 8 8 TextureFormat.RGBA8888).map
        (fun d => flip_vertical d 8 8) =
      decodeNoFlip (List.replicate 256 0) 8 8 TextureFormat.RGBA8888 :=
  C10_inversions_cancel (List.replicate 256 0) 8 8 (by norm_num) (by norm_num)
    (by norm_num) (by norm_num) TextureFormat.RGBA8888 (by decide)
    (by rw [List.length_replicate]; norm_num [decodeBpp])

set_option maxRecDepth 4000 in
/-- Claim C6: in ETC1A4 encoding every 4×4 sub-block's 64-bit alpha mask
collects each pixel's top alpha nibble at bit position
`((px & 3) * 4 + (py & 3)) << 2`; a sub-block whose pixels all carry alpha
`0xF0` yields mask `0xFFFFFFFFFFFFFFFF`, and the mask's 8 little-endian
bytes are emitted immediately before the byte-swapped compressed block. -/
theorem C6_etc1a4_alpha_mask (img : Image) (compress : List Nat → List Nat)
    (halpha : ∀ x y, (img x y).a = 0xF0) :
    (∀ w h tx ty t, t < 4 →
      (subBlockState img w h true tx ty t).2 = 0xFFFFFFFFFFFFFFFF) ∧
    u64ToLEBytes 0xFFFFFFFFFFFFFFFF = List.replicate 8 0xFF ∧
    encode_etc1 img 8 8 true compress =
      (List.range 4).flatMap (fun t =>
        List.replicate 8 0xFF ++
          swap64 (compress ((subBlockState img 8 8 true 0 0 t).1))) := by
  have hmaskbytes : u64ToLEBytes 0xFFFFFFFFFFFFFFFF =
      List.replicate 8 0xFF := by decide
  refine ⟨fun w h tx ty t ht => subBlock_alpha_full img w h tx ty t ht halpha,
    hmaskbytes, ?_⟩
  unfold encode_etc1
  have hts : tileStarts 8 = [0] := by decide
  rw [hts]
  simp only [List.flatMap_cons, List.flatMap_nil, List.append_nil]
  apply flatMap_congr_mem
  intro t ht
  have ht4 : t < 4 := List.mem_range.mp ht
  rw [if_pos trivial]
  rw [subBlock_alpha_full img 8 8 0 0 t ht4 halpha, hmaskbytes]

/-- Claim C6, witness: the lower-left sub-block of a tile of an all-alpha
`0xF0` image gets the all-ones mask. -/
theorem C6_witness :
    (subBlockState (fun _ _ => ⟨0, 0, 0, 0xF0⟩) 8 8 true 0 0 2).2 =
      0xFFFFFFFFFFFFFFFF :=
  (C6_etc1a4_alpha_mask (fun _ _ => ⟨0, 0, 0, 0xF0⟩)
    (fun _ => List.replicate 8 0) (fun _ _ => rfl)).1 8 8 0 0 2 (by norm_num)

/-- Claim C8: the 64-byte RGBA buffer built for a 4×4 sub-block holds its 16
pixels in row-major sub-block order — pixel `i` at byte offset `i * 4` with
channels R, G, B, A — and every pixel whose absolute coordinates fall
outside the image is synthesized as `(0, 0, 0, 255)`; the buffer always has
its full fixed size 64. -/
theorem C8_block_assembly (img : Image) (w h : Nat) (ha : Bool)
    (tx ty t : Nat) :
    ((subBlockState img w h ha tx ty t).1).length = 64 ∧
    ∀ i, i < 16 →
      (subBlockState img w h ha tx ty t).1[i * 4]? =
        some (if tx + (XT.getD t 0 + i % 4) < w ∧
            ty + (YT.getD t 0 + i / 4) < h then
          (img (tx + (XT.getD t 0 + i % 4)) (ty + (YT.getD t 0 + i / 4))).r
          else 0) ∧
      (subBlockState img w h ha tx ty t).1[i * 4 + 1]? =
        some (if tx + (XT.getD t 0 + i % 4) < w ∧
            ty + (YT.getD t 0 + i / 4) < h then
          (img (tx + (XT.getD t 0 + i % 4)) (ty + (YT.getD t 0 + i / 4))).g
          else 0) ∧
      (subBlockState img w h ha tx ty t).1[i * 4 + 2]? =
        some (if tx + (XT.getD t 0 + i % 4) < w ∧
            ty + (YT.getD t 0 + i / 4) < h then
          (img (tx + (XT.getD t 0 + i % 4)) (ty + (YT.getD t 0 + i / 4))).b
          else 0) ∧
      (subBlockState img w h ha tx ty t).1[i * 4 + 3]? =
        some (if tx + (XT.getD t 0 + i % 4) < w ∧
            ty + (YT.getD t 0 + i / 4) < h then
          (img (tx + (XT.getD t 0 + i % 4)) (ty + (YT.getD t 0 + i / 4))).a
          else 255) := by
  obtain ⟨hlen64, -, hwr⟩ :=
    blockFold_spec img w h tx ty t ha 16 (Nat.le_refl 16)
  have hp1 : ∀ i, (subPixel img w h tx ty t i).1 =
      (if tx + (XT.getD t 0 + i % 4) < w ∧ ty + (YT.getD t 0 + i / 4) < h
        then (img (tx + (XT.getD t 0 + i % 4))
          (ty + (YT.getD t 0 + i / 4))).r else 0) := by
    intro i
    unfold subPixel
    split <;> rfl
  have hp2 : ∀ i, (subPixel img w h tx ty t i).2.1 =
      (if tx + (XT.getD t 0 + i % 4) < w ∧ ty + (YT.getD t 0 + i / 4) < h
        then (img (tx + (XT.getD t 0 + i % 4))
          (ty + (YT.getD t 0 + i / 4))).g else 0) := by
    intro i
    unfold subPixel
    split <;> rfl
  have hp3 : ∀ i, (subPixel img w h tx ty t i).2.2.1 =
      (if tx + (XT.getD t 0 + i % 4) < w ∧ ty + (YT.getD t 0 + i / 4) < h
        then (img (tx + (XT.getD t 0 + i % 4))
          (ty + (YT.getD t 0 + i / 4))).b else 0) := by
    intro i
    unfold subPixel
    split <;> rfl
  have hp4 : ∀ i, (subPixel img w h tx ty t i).2.2.2 =
      (if tx + (XT.getD t 0 + i % 4) < w ∧ ty + (YT.getD t 0 + i / 4) < h
        then (img (tx + (XT.getD t 0 + i % 4))
          (ty + (YT.getD t 0 + i / 4))).a else 255) := by
    intro i
    unfold subPixel
    split <;> rfl
  constructor
  · rw [subBlockState_fst]
    exact hlen64
  · intro i hi
    obtain ⟨w0, w1, w2, w3⟩ := hwr i hi
    rw [hp1 i] at w0
    rw [hp2 i] at w1
    rw [hp3 i] at w2
    rw [hp4 i] at w3
    rw [subBlockState_fst img w h ha tx ty t]
    exact ⟨w0, w1, w2, w3⟩

/-- Claim C8, witness: sub-block 1 of the tile at the origin of an 8×8
image, pixel 5, carries the image pixel at `(4 + 1, 0 + 1)`. -/
theorem C8_witness :
    ((subBlockState (fun _ _ => ⟨9, 8, 7, 6⟩) 8 8 false 0 0 1).1).length =
      64 ∧
    (subBlockState (fun _ _ => ⟨9, 8, 7, 6⟩) 8 8 false 0 0 1).1[5 * 4]? =
      some (if 0 + (XT.getD 1 0 + 5 % 4) < 8 ∧ 0 + (YT.getD 1 0 + 5 / 4) < 8
        then ((fun _ _ => (⟨9, 8, 7, 6⟩ : Pixel)) (0 + (XT.getD 1 0 + 5 % 4))
          (0 + (YT.getD 1 0 + 5 / 4))).r else 0) :=
  ⟨(C8_block_assembly (fun _ _ => ⟨9, 8, 7, 6⟩) 8 8 false 0 0 1).1,
    ((C8_block_assembly (fun _ _ => ⟨9, 8, 7, 6⟩) 8 8 false 0 0 1).2 5
      (by norm_num)).1⟩

end PicaTexture
